import Mathlib

/-!
Verification of the interval / disjoint-interval-set library.

The embedding models the two core headers:
  - include/dis/core/interval.hpp            (class dis::interval<T>)
  - include/dis/core/disjoint_interval_set.hpp (class dis::disjoint_interval_set<I>)

The scalar type T is modelled by EV: the integers extended with a negative
and a positive infinity sentinel, mirroring an instantiation such as
T = double restricted to representable ordered values (NaN excluded; the
code's Boundary concept requires a total order).  All comparisons in the
C++ code (<, >, ==, <=, >=) are modelled by EV.blt / EV.ble / equality.
-/

inductive EV where
  | ninf : EV
  | fin : Int → EV
  | pinf : EV
deriving DecidableEq, Repr

namespace EV

/-- Strict order on the extended scalars: models operator< on T. -/
def blt : EV → EV → Bool
  | .ninf, .ninf => false
  | .ninf, _ => true
  | .fin _, .ninf => false
  | .fin a, .fin b => a < b
  | .fin _, .pinf => true
  | .pinf, _ => false

/-- Non-strict order: models operator<= on T (equivalently not (b < a)). -/
def ble (a b : EV) : Bool := !(blt b a)

/-- Models std::max(a, b): returns b exactly when a < b. -/
def maxE (a b : EV) : EV := if blt a b then b else a

/-- Models std::min(a, b): returns b exactly when b < a. -/
def minE (a b : EV) : EV := if blt b a then b else a

theorem blt_irrefl (a : EV) : blt a a = false := by
  cases a <;> simp [blt]

theorem ble_refl (a : EV) : ble a a = true := by
  simp [ble, blt_irrefl]

theorem blt_asymm {a b : EV} (h : blt a b = true) : blt b a = false := by
  cases a <;> cases b <;> simp_all [blt] <;> omega

theorem blt_trans {a b c : EV} (h1 : blt a b = true) (h2 : blt b c = true) :
    blt a c = true := by
  cases a <;> cases b <;> cases c <;> simp_all [blt] <;> omega

theorem blt_of_blt_of_ble {a b c : EV} (h1 : blt a b = true) (h2 : ble b c = true) :
    blt a c = true := by
  cases a <;> cases b <;> cases c <;> simp_all [blt, ble] <;> omega

theorem blt_of_ble_of_blt {a b c : EV} (h1 : ble a b = true) (h2 : blt b c = true) :
    blt a c = true := by
  cases a <;> cases b <;> cases c <;> simp_all [blt, ble] <;> omega

theorem ble_trans {a b c : EV} (h1 : ble a b = true) (h2 : ble b c = true) :
    ble a c = true := by
  cases a <;> cases b <;> cases c <;> simp_all [blt, ble] <;> omega

theorem ble_antisymm {a b : EV} (h1 : ble a b = true) (h2 : ble b a = true) :
    a = b := by
  cases a <;> cases b <;> simp_all [blt, ble] <;> omega

theorem ble_of_blt {a b : EV} (h : blt a b = true) : ble a b = true := by
  cases a <;> cases b <;> simp_all [blt, ble] <;> omega

theorem ble_of_eq {a b : EV} (h : a = b) : ble a b = true := by
  subst h; exact ble_refl a

theorem blt_or_eq_of_ble {a b : EV} (h : ble a b = true) :
    blt a b = true ∨ a = b := by
  cases a <;> cases b <;> simp_all [blt, ble] <;> omega

theorem ble_total (a b : EV) : ble a b = true ∨ ble b a = true := by
  cases a <;> cases b <;> simp_all [blt, ble] <;> omega

theorem not_ble_iff_blt {a b : EV} : ble a b = false ↔ blt b a = true := by
  cases a <;> cases b <;> simp [blt, ble]

theorem not_blt_iff_ble {a b : EV} : blt a b = false ↔ ble b a = true := by
  cases a <;> cases b <;> simp [blt, ble]

theorem blt_ne {a b : EV} (h : blt a b = true) : a ≠ b := by
  intro he; subst he; simp [blt_irrefl] at h

theorem tri (a b : EV) : blt a b = true ∨ a = b ∨ blt b a = true := by
  cases a <;> cases b <;> simp [blt] <;> omega

theorem ninf_ble (a : EV) : ble ninf a = true := by
  cases a <;> simp [ble, blt]

theorem ble_pinf (a : EV) : ble a pinf = true := by
  cases a <;> simp [ble, blt]

theorem blt_pinf_of_ne {a : EV} (h : a ≠ pinf) : blt a pinf = true := by
  cases a <;> simp_all [blt]

theorem ninf_blt_of_ne {a : EV} (h : a ≠ ninf) : blt ninf a = true := by
  cases a <;> simp_all [blt]

theorem maxE_eq_left {a b : EV} (h : ble b a = true) : maxE a b = a := by
  have hf : blt a b = false := by
    cases blt_or_eq_of_ble h with
    | inl h1 => exact blt_asymm h1
    | inr h1 => rw [h1]; exact blt_irrefl _
  simp [maxE, hf]

theorem maxE_eq_right {a b : EV} (h : blt a b = true) : maxE a b = b := by
  simp [maxE, h]

theorem minE_eq_left {a b : EV} (h : ble a b = true) : minE a b = a := by
  have hf : blt b a = false := by
    cases blt_or_eq_of_ble h with
    | inl h1 => exact blt_asymm h1
    | inr h1 => rw [h1]; exact blt_irrefl _
  simp [minE, hf]

theorem minE_eq_right {a b : EV} (h : blt b a = true) : minE a b = b := by
  simp [minE, h]

end EV

/--
Model of dis::interval<T> (interval.hpp).  The C++ class keeps its four
fields private; every value observable by clients is produced by the
4-argument constructor (modelled by Ival.make, which canonicalizes empty
inputs exactly as the constructor does) or by the default constructor
(modelled by Ival.emptyI).
-/
structure Ival where
  lower : EV
  upper : EV
  lc : Bool
  rc : Bool
deriving DecidableEq, Repr

namespace Ival

/-- The default-constructed interval: lower=0, upper=-1, both open. -/
def emptyI : Ival := ⟨.fin 0, .fin (-1), false, false⟩

/-- The 4-argument constructor, which canonicalizes empty results. -/
def make (lo hi : EV) (lc rc : Bool) : Ival :=
  if EV.blt hi lo || (lo = hi && (!lc || !rc)) then emptyI else ⟨lo, hi, lc, rc⟩

/-- interval::empty(): lower_ > upper_. -/
def isEmpty (i : Ival) : Bool := EV.blt i.upper i.lower

-- Named constructors (factory methods).

def closed (lo hi : EV) : Ival := make lo hi true true

def opn (lo hi : EV) : Ival := make lo hi false false

def left_open (lo hi : EV) : Ival := make lo hi false true

def right_open (lo hi : EV) : Ival := make lo hi true false

def point (v : EV) : Ival := make v v true true

def unbounded : Ival := make .ninf .pinf false false

def at_least (v : EV) : Ival := make v .pinf true false

def at_most (v : EV) : Ival := make .ninf v false true

def greater_than (v : EV) : Ival := make v .pinf false false

def less_than (v : EV) : Ival := make .ninf v false false

/-- interval::contains(value). -/
def contains (i : Ival) (v : EV) : Bool :=
  if i.isEmpty then false
  else
    (if i.lc then EV.ble i.lower v else EV.blt i.lower v) &&
    (if i.rc then EV.ble v i.upper else EV.blt v i.upper)

/-- interval::is_left_closed(). -/
def is_left_closed (i : Ival) : Bool := !i.isEmpty && i.lc

/-- interval::is_right_closed(). -/
def is_right_closed (i : Ival) : Bool := !i.isEmpty && i.rc

/-- interval::overlaps(other). -/
def overlaps (a b : Ival) : Bool :=
  if a.isEmpty || b.isEmpty then false
  else if EV.blt a.upper b.lower then false
  else if EV.blt b.upper a.lower then false
  else if a.upper = b.lower then a.rc && b.lc
  else if a.lower = b.upper then a.lc && b.rc
  else true

/-- interval::adjacent_to(other). -/
def adjacent_to (a b : Ival) : Bool :=
  if a.isEmpty || b.isEmpty then false
  else if a.upper = b.lower then a.rc != b.lc
  else if a.lower = b.upper then a.lc != b.rc
  else false

/-- interval::intersect(other). -/
def inter (a b : Ival) : Ival :=
  if a.isEmpty || b.isEmpty then emptyI
  else
    let nl := EV.maxE a.lower b.lower
    let nu := EV.minE a.upper b.upper
    if EV.blt nu nl then emptyI
    else
      let nlc := if a.lower = b.lower then a.lc && b.lc
                 else if nl = a.lower then a.lc else b.lc
      let nrc := if a.upper = b.upper then a.rc && b.rc
                 else if nu = a.upper then a.rc else b.rc
      if nl = nu && (!nlc || !nrc) then emptyI
      else make nl nu nlc nrc

/-- interval::hull(other), returning std::nullopt when undefined. -/
def hull (a b : Ival) : Option Ival :=
  if a.isEmpty then some b
  else if b.isEmpty then some a
  else if !(a.overlaps b) && !(a.adjacent_to b) then none
  else
    let nl := EV.minE a.lower b.lower
    let nu := EV.maxE a.upper b.upper
    let nlc := if a.lower = b.lower then a.lc || b.lc
               else if nl = a.lower then a.lc else b.lc
    let nrc := if a.upper = b.upper then a.rc || b.rc
               else if nu = a.upper then a.rc else b.rc
    some (make nl nu nlc nrc)

/-- interval operator<=> (lexicographic ordering used by std::ranges::sort). -/
def cmp (a b : Ival) : Ordering :=
  if a.isEmpty && b.isEmpty then .eq
  else if a.isEmpty then .lt
  else if b.isEmpty then .gt
  else if EV.blt a.lower b.lower then .lt
  else if EV.blt b.lower a.lower then .gt
  else if a.lc != b.lc then (if a.lc then .lt else .gt)
  else if EV.blt a.upper b.upper then .lt
  else if EV.blt b.upper a.upper then .gt
  else if a.rc != b.rc then (if a.rc then .lt else .gt)
  else .eq

/-- interval operator== (all empty intervals compare equal). -/
def eqb (a b : Ival) : Bool :=
  if a.isEmpty && b.isEmpty then true
  else a.lower == b.lower && a.upper == b.upper && a.lc == b.lc && a.rc == b.rc

/--
Datatype invariant of dis::interval<T>: the fields are private and every
constructed value is canonicalized, so an interval value either is the
canonical empty interval or has lower <= upper, a point being closed on
both sides.
-/
def Valid (i : Ival) : Prop :=
  i = emptyI ∨ (EV.ble i.lower i.upper = true ∧ (i.lower = i.upper → i.lc = true ∧ i.rc = true))

instance : DecidablePred Valid := fun i => by
  unfold Valid; infer_instance

theorem emptyI_isEmpty : emptyI.isEmpty = true := by decide

theorem make_valid (lo hi : EV) (lc rc : Bool) : (make lo hi lc rc).Valid := by
  unfold make Valid
  by_cases h1 : EV.blt hi lo = true
  · simp [h1]
  · by_cases h2 : lo = hi
    · subst h2
      cases lc <;> cases rc <;> simp_all [EV.ble_refl]
    · have h3 : EV.ble lo hi = true := EV.not_blt_iff_ble.mp (by simpa using h1)
      simp [h1, h2, h3]

theorem emptyI_valid : Valid emptyI := Or.inl rfl

theorem valid_nonempty {i : Ival} (hv : i.Valid) (hne : i.isEmpty = false) :
    EV.ble i.lower i.upper = true ∧ (i.lower = i.upper → i.lc = true ∧ i.rc = true) := by
  cases hv with
  | inl h => rw [h] at hne; rw [emptyI_isEmpty] at hne; cases hne
  | inr h => exact h

theorem isEmpty_false_iff {i : Ival} : i.isEmpty = false ↔ EV.ble i.lower i.upper = true := by
  unfold isEmpty EV.ble
  cases h : EV.blt i.upper i.lower <;> simp

/-- make is the identity when the requested interval is genuinely non-empty. -/
theorem make_id {lo hi : EV} {lc rc : Bool}
    (h : EV.blt lo hi = true ∨ (lo = hi ∧ lc = true ∧ rc = true)) :
    make lo hi lc rc = ⟨lo, hi, lc, rc⟩ := by
  unfold make
  cases h with
  | inl h1 =>
    have h2 : EV.blt hi lo = false := EV.blt_asymm h1
    have h3 : lo ≠ hi := EV.blt_ne h1
    simp [h2, h3]
  | inr h1 =>
    obtain ⟨he, hl, hr⟩ := h1
    subst he hl hr
    simp [EV.blt_irrefl]

theorem make_isEmpty_false {lo hi : EV} {lc rc : Bool}
    (h : EV.blt lo hi = true ∨ (lo = hi ∧ lc = true ∧ rc = true)) :
    (make lo hi lc rc).isEmpty = false := by
  rw [make_id h]
  unfold isEmpty
  cases h with
  | inl h1 => exact EV.blt_asymm h1
  | inr h1 => rw [h1.1]; exact EV.blt_irrefl hi

end Ival

/-! ### The sort relation used by std::ranges::sort

std::ranges::sort orders by operator<, the strict weak order derived from
operator<=> (a < b iff cmp a b = lt).  Because for non-empty canonical
intervals cmp-equivalence coincides with equality, and the lists the class
sorts never contain empty intervals, every correct sort produces the same
output list; we model the sort with insertion sort over the non-strict
relation ile (not greater). -/

/-- Non-strict sort order derived from the interval operator<=>. -/
def ile (a b : Ival) : Prop := Ival.cmp a b ≠ Ordering.gt

instance : DecidableRel ile := fun a b => by
  unfold ile; infer_instance

/-- The merge sweep of disjoint_interval_set::normalize: the accumulator is
the component at the write index; a successful hull merges in place,
otherwise the accumulator is emitted and restarted. -/
def mergeLoop : Ival → List Ival → List Ival
  | cur, [] => [cur]
  | cur, x :: xs =>
    match cur.hull x with
    | some m => mergeLoop m xs
    | none => cur :: mergeLoop x xs

/-- disjoint_interval_set::normalize on the component vector. -/
def normalizeList (l : List Ival) : List Ival :=
  if l.length ≤ 1 then l
  else
    match List.insertionSort ile l with
    | [] => []
    | x :: xs => mergeLoop x xs

/-- Model of dis::disjoint_interval_set<I> (disjoint_interval_set.hpp):
the private component vector intervals_. -/
structure DIS where
  l : List Ival
deriving DecidableEq, Repr

namespace DIS

/-- The range/initializer-list constructor: push each non-empty interval,
then normalize. -/
def ofList (xs : List Ival) : DIS :=
  ⟨normalizeList (xs.filter (fun i => !i.isEmpty))⟩

/-- The single-interval constructor. -/
def ofIval (i : Ival) : DIS := ⟨if i.isEmpty then [] else [i]⟩

/-- disjoint_interval_set::unbounded(). -/
def unboundedD : DIS := ofIval Ival.unbounded

/-- disjoint_interval_set::unite. -/
def unite (A B : DIS) : DIS :=
  if A.l = [] then B
  else if B.l = [] then A
  else ⟨normalizeList (A.l ++ B.l)⟩

/-- disjoint_interval_set::intersect (nested loop over all pairs, keeping
non-empty pairwise intersections, then normalize). -/
def interD (A B : DIS) : DIS :=
  if A.l = [] ∨ B.l = [] then ⟨[]⟩
  else ⟨normalizeList (A.l.flatMap (fun a => (B.l.map (fun b => a.inter b)).filter (fun c => !c.isEmpty)))⟩

/-- The inter-component loop of disjoint_interval_set::complement (and of
gaps()): one gap piece per consecutive pair of components. -/
def compBetween : List Ival → List Ival
  | a :: b :: rest => Ival.make a.upper b.lower (!a.is_right_closed) (!b.is_left_closed) :: compBetween (b :: rest)
  | _ => []

/-- disjoint_interval_set::complement. -/
def compl (A : DIS) : DIS :=
  match A.l with
  | [] => unboundedD
  | first :: rest =>
    let last := rest.getLastD first
    let headPart : List Ival :=
      if first.lower = EV.ninf then []
      else [Ival.make EV.ninf first.lower false (!first.is_left_closed)]
    let tailPart : List Ival :=
      if last.upper = EV.pinf then []
      else [Ival.make last.upper EV.pinf (!last.is_right_closed) false]
    ⟨headPart ++ compBetween (first :: rest) ++ tailPart⟩

/-- disjoint_interval_set::difference. -/
def diff (A B : DIS) : DIS := A.interD B.compl

/-- disjoint_interval_set::symmetric_difference. -/
def symmDiff (A B : DIS) : DIS := (A.unite B).diff (A.interD B)

/-- disjoint_interval_set::insert(I): push then normalize (no-op on an
empty argument). -/
def insertI (A : DIS) (i : Ival) : DIS :=
  if i.isEmpty then A else ⟨normalizeList (A.l ++ [i])⟩

/-- disjoint_interval_set::map: fold of add (= insert) over the components,
starting from an empty set. -/
def mapD (A : DIS) (f : Ival → Ival) : DIS :=
  A.l.foldl (fun acc j => acc.insertI (f j)) ⟨[]⟩

/-- disjoint_interval_set::span. -/
def span (A : DIS) : Ival :=
  match A.l with
  | [] => Ival.emptyI
  | c :: cs => Ival.make c.lower (cs.getLastD c).upper true true

/-- The helper of disjoint_interval_set::erase(const I&): std::find by
operator== followed by vector::erase; returns the count and the new list. -/
def eraseFirst : List Ival → Ival → Nat × List Ival
  | [], _ => (0, [])
  | x :: xs, i =>
    if x.eqb i then (1, xs)
    else
      let r := eraseFirst xs i
      (r.1, x :: r.2)

/-- disjoint_interval_set::erase(const I&). -/
def eraseI (A : DIS) (i : Ival) : Nat × DIS :=
  let r := eraseFirst A.l i
  (r.1, ⟨r.2⟩)

/-- The comparator passed to std::lower_bound inside contains(value):
interval.upper_bound().value_or(v) < v. -/
def lbPred (v : EV) (i : Ival) : Bool :=
  EV.blt (if i.isEmpty then v else i.upper) v

/-- The std::lower_bound binary search loop (libstdc++ algorithm shape:
halve the count, advance past the midpoint when the predicate holds).
The fuel argument only drives structural recursion; the initial count is
always enough fuel because the count strictly decreases each round. -/
def lbLoop (l : List Ival) (v : EV) : Nat → Nat → Nat → Nat
  | 0, first, _ => first
  | fuel + 1, first, count =>
    if count = 0 then first
    else
      let step := count / 2
      let idx := first + step
      if lbPred v (l.getD idx Ival.emptyI) then
        lbLoop l v fuel (idx + 1) (count - step - 1)
      else
        lbLoop l v fuel first step

/-- disjoint_interval_set::contains(value_type): it != end() and
it->contains(value), where it is the lower_bound result. -/
def containsV (A : DIS) (v : EV) : Bool :=
  decide (lbLoop A.l v A.l.length 0 A.l.length < A.l.length) &&
  (A.l.getD (lbLoop A.l v A.l.length 0 A.l.length) Ival.emptyI).contains v

/-- disjoint_interval_set operator== (std::vector ==, elementwise
interval operator==). -/
def eqD (A B : DIS) : Bool :=
  go A.l B.l
where
  go : List Ival → List Ival → Bool
  | [], [] => true
  | x :: xs, y :: ys => x.eqb y && go xs ys
  | _, _ => false

/-- The pairwise separation that the normalize invariant guarantees between
components in list order: the earlier one ends strictly before the later
one starts, or they touch at a single value with both touching sides open. -/
def Sep (a b : Ival) : Prop :=
  EV.blt a.upper b.lower = true ∨ (a.upper = b.lower ∧ a.rc = false ∧ b.lc = false)

/-- A good component: a canonically constructed, non-empty interval. -/
def Good (i : Ival) : Prop := i.Valid ∧ i.isEmpty = false

instance : DecidablePred Good := fun i => by
  unfold Good; infer_instance

/-- The class invariant as the specification states it: components sorted
strictly ascending (by the interval ordering), pairwise non-overlapping
and pairwise non-adjacent; every stored component is non-empty (and is a
canonically constructed interval value). -/
def Inv (A : DIS) : Prop :=
  A.l.Pairwise (fun a b => a.cmp b = Ordering.lt ∧ a.overlaps b = false ∧ a.adjacent_to b = false) ∧
  ∀ i ∈ A.l, Good i

/-- The working form of the invariant: consecutive separation. -/
def InvAux (A : DIS) : Prop :=
  A.l.Chain' Sep ∧ ∀ i ∈ A.l, Good i

end DIS

namespace EV

theorem pinf_not_blt (a : EV) : blt pinf a = false := by
  cases a <;> simp [blt]

theorem not_blt_ninf (a : EV) : blt a ninf = false := by
  cases a <;> simp [blt]

end EV

instance : Inhabited Ival := ⟨Ival.emptyI⟩

namespace DIS

theorem good_ble {i : Ival} (h : Good i) : EV.ble i.lower i.upper = true :=
  (Ival.valid_nonempty h.1 h.2).1

theorem good_point {i : Ival} (h : Good i) (he : i.lower = i.upper) :
    i.lc = true ∧ i.rc = true :=
  (Ival.valid_nonempty h.1 h.2).2 he

/-- Separated components, in order, relate by cmp as strictly ascending and
are neither overlapping nor adjacent. -/
theorem sep_to_inv_pair {a b : Ival} (ha : Good a) (hb : Good b) (hs : Sep a b) :
    a.cmp b = Ordering.lt ∧ a.overlaps b = false ∧ a.adjacent_to b = false := by
  have hae := ha.2
  have hbe := hb.2
  have haa := good_ble ha
  have hbb := good_ble hb
  have hll : EV.blt a.lower b.lower = true := by
    cases hs with
    | inl h => exact EV.blt_of_ble_of_blt haa h
    | inr h =>
      obtain ⟨he, hrc, hlc⟩ := h
      cases EV.blt_or_eq_of_ble haa with
      | inl h1 => rw [← he]; exact h1
      | inr h1 =>
        have := (good_point ha (by rw [h1])).2
        rw [he] at h1
        rw [this] at hrc
        cases hrc
  have hcmp : a.cmp b = Ordering.lt := by
    unfold Ival.cmp
    simp [hae, hbe, hll]
  refine ⟨hcmp, ?_, ?_⟩
  · unfold Ival.overlaps
    cases hs with
    | inl h =>
      simp [hae, hbe, h]
    | inr h =>
      obtain ⟨he, hrc, hlc⟩ := h
      have h1 : EV.blt a.upper b.lower = false := by
        rw [he]; exact EV.blt_irrefl _
      have h2 : EV.blt b.upper a.lower = false := by
        rw [EV.not_blt_iff_ble]
        exact EV.ble_trans (EV.ble_of_blt hll) hbb
      simp [hae, hbe, h1, h2, he, hrc]
  · unfold Ival.adjacent_to
    cases hs with
    | inl h =>
      have h1 : a.upper ≠ b.lower := EV.blt_ne h
      have h2 : a.lower ≠ b.upper := by
        intro hcon
        have : EV.blt a.lower b.lower = true := EV.blt_of_ble_of_blt haa h
        have h3 : EV.ble b.lower b.upper = true := hbb
        rw [← hcon] at h3
        have := EV.blt_of_ble_of_blt h3 this
        rw [EV.blt_irrefl] at this
        cases this
      simp [hae, hbe, h1, h2]
    | inr h =>
      obtain ⟨he, hrc, hlc⟩ := h
      simp [hae, hbe, he, hrc, hlc]
/-- In the ascending cases of the interval ordering the lower bounds are
non-strictly ordered. -/
theorem cmp_lt_ble_lower {a b : Ival} (hae : a.isEmpty = false) (hbe : b.isEmpty = false)
    (hlt : a.cmp b = Ordering.lt) : EV.ble a.lower b.lower = true := by
  unfold Ival.cmp at hlt
  simp [hae, hbe] at hlt
  by_cases h1 : EV.blt a.lower b.lower = true
  · exact EV.ble_of_blt h1
  · by_cases h2 : EV.blt b.lower a.lower = true
    · simp [h1, h2] at hlt
    · exact EV.not_blt_iff_ble.mp (by simpa using h2)

/-- Non-overlapping, non-adjacent intervals whose lower bounds are ordered
are separated. -/
theorem sep_of_separated {a b : Ival} (ha : Good a) (hb : Good b)
    (hlow : EV.ble a.lower b.lower = true) (hov : a.overlaps b = false)
    (hadj : a.adjacent_to b = false) : Sep a b := by
  have hae := ha.2
  have hbe := hb.2
  have haa := good_ble ha
  have hbb := good_ble hb
  unfold Ival.overlaps at hov
  unfold Ival.adjacent_to at hadj
  rw [hae, hbe] at hov hadj
  simp only [Bool.false_or, Bool.or_false, if_false, Bool.or_self] at hov hadj
  by_cases h1 : EV.blt a.upper b.lower = true
  · exact Or.inl h1
  · have h1f : EV.blt a.upper b.lower = false := by simpa using h1
    rw [h1f] at hov
    by_cases h2 : a.upper = b.lower
    · refine Or.inr ⟨h2, ?_⟩
      have hbu : EV.blt b.upper a.lower = false := by
        rw [EV.not_blt_iff_ble]
        exact EV.ble_trans haa (EV.ble_trans (EV.ble_of_eq h2) hbb)
      rw [hbu] at hov
      simp only [if_false, Bool.false_eq_true, if_pos h2] at hov
      rw [if_pos h2] at hadj
      have heq : a.rc = b.lc := by
        cases hx : a.rc <;> cases hy : b.lc <;> simp [hx, hy] at hadj ⊢
      cases hx : a.rc with
      | false =>
        refine ⟨rfl, ?_⟩
        rw [← heq]
        exact hx
      | true =>
        exfalso
        rw [hx, ← heq, hx] at hov
        simp at hov
    · exfalso
      rw [if_neg h2] at hov hadj
      by_cases h3 : EV.blt b.upper a.lower = true
      · have hcon : EV.blt b.upper b.lower = true := EV.blt_of_blt_of_ble h3 hlow
        have h4 : EV.ble b.lower b.upper = true := hbb
        rw [EV.ble, hcon] at h4
        simp at h4
      · have h3f : EV.blt b.upper a.lower = false := by simpa using h3
        rw [h3f] at hov
        simp only [Bool.false_eq_true, if_false] at hov
        by_cases h4 : a.lower = b.upper
        · rw [if_pos h4] at hov hadj
          have hbl : b.lower = b.upper := by
            refine EV.ble_antisymm hbb ?_
            rw [← h4]
            exact hlow
          have hbpt := good_point hb hbl
          rw [hbpt.2] at hov hadj
          simp only [Bool.and_true] at hov
          rw [hov] at hadj
          simp at hadj
        · rw [if_neg h4] at hov
          simp at hov
/-- Conversely, components related as strictly ascending, non-overlapping
and non-adjacent are separated. -/
theorem inv_pair_to_sep {a b : Ival} (ha : Good a) (hb : Good b)
    (hlt : a.cmp b = Ordering.lt) (hov : a.overlaps b = false)
    (hadj : a.adjacent_to b = false) : Sep a b :=
  sep_of_separated ha hb (cmp_lt_ble_lower ha.2 hb.2 hlt) hov hadj

/-- Separation is transitive along good components. -/
theorem sep_trans_good {a b c : Ival} (hb : Good b) (h1 : Sep a b) (h2 : Sep b c) :
    Sep a c := by
  have hbb := good_ble hb
  cases h1 with
  | inl hs1 =>
    cases h2 with
    | inl hs2 => exact Or.inl (EV.blt_trans (EV.blt_of_blt_of_ble hs1 hbb) hs2)
    | inr hs2 => exact Or.inl (EV.blt_of_blt_of_ble hs1 (EV.ble_trans hbb (EV.ble_of_eq hs2.1)))
  | inr hs1 =>
    obtain ⟨he1, hrc1, hlc1⟩ := hs1
    cases h2 with
    | inl hs2 => exact Or.inl (EV.blt_of_ble_of_blt (EV.ble_trans (EV.ble_of_eq he1) hbb) hs2)
    | inr hs2 =>
      obtain ⟨he2, hrc2, hlc2⟩ := hs2
      cases EV.blt_or_eq_of_ble hbb with
      | inl h3 =>
        refine Or.inl ?_
        rw [he1, ← he2]
        exact h3
      | inr h3 =>
        exfalso
        have := (good_point hb h3).1
        rw [this] at hlc1
        cases hlc1

/-- Along a chain of separated good components the head is separated from
every later component. -/
theorem chain_sep_all : ∀ (l : List Ival) (x : Ival), (∀ i ∈ x :: l, Good i) →
    (x :: l).Chain' Sep → ∀ b ∈ l, Sep x b
  | [], _, _, _, b, hb => absurd hb (List.not_mem_nil b)
  | y :: l, x, hg, hc, b, hb => by
    have hxy : Sep x y := (List.chain'_cons.mp hc).1
    rcases List.mem_cons.mp hb with h | h
    · rw [h]; exact hxy
    · have hy : Good y := hg y (by simp)
      have := chain_sep_all l y (fun i hi => hg i (List.mem_cons_of_mem x hi))
        (List.chain'_cons.mp hc).2 b h
      exact sep_trans_good hy hxy this

/-- A chain of separated good components is pairwise separated. -/
theorem chain_sep_pairwise : ∀ (l : List Ival), (∀ i ∈ l, Good i) →
    l.Chain' Sep → l.Pairwise Sep
  | [], _, _ => List.Pairwise.nil
  | x :: l, hg, hc => by
    refine List.Pairwise.cons ?_ ?_
    · exact chain_sep_all l x hg hc
    · exact chain_sep_pairwise l (fun i hi => hg i (List.mem_cons_of_mem x hi))
        ((List.chain'_cons'.mp hc).2)

/-- The stated invariant and its working form coincide. -/
theorem inv_iff_invAux (A : DIS) : Inv A ↔ InvAux A := by
  constructor
  · rintro ⟨hp, hg⟩
    refine ⟨?_, hg⟩
    refine List.Pairwise.chain' ?_
    refine List.Pairwise.imp_of_mem ?_ hp
    intro a b hma hmb hr
    exact inv_pair_to_sep (hg a hma) (hg b hmb) hr.1 hr.2.1 hr.2.2
  · rintro ⟨hc, hg⟩
    refine ⟨?_, hg⟩
    have hps := chain_sep_pairwise A.l hg hc
    refine List.Pairwise.imp_of_mem ?_ hps
    intro a b hma hmb hr
    exact sep_to_inv_pair (hg a hma) (hg b hmb) hr

end DIS

/-! ### Claim C7: adjacency -/

/-- C7: a.adjacent_to(b) returns true iff both operands are non-empty, they
share a boundary point (a's upper equals b's lower, or a's lower equals b's
upper; under the interval datatype invariant at most one such point exists),
and exactly one of the two touching sides is open; it returns false whenever
either operand is empty. -/
theorem claim_C7_adjacent (a b : Ival) (ha : a.Valid) (hb : b.Valid) :
    a.adjacent_to b = true ↔
      (a.isEmpty = false ∧ b.isEmpty = false ∧
        ((a.upper = b.lower ∧ a.rc ≠ b.lc) ∨ (a.lower = b.upper ∧ a.lc ≠ b.rc))) := by
  by_cases hae : a.isEmpty = true
  · unfold Ival.adjacent_to
    simp [hae]
  · have hae2 : a.isEmpty = false := by simpa using hae
    by_cases hbe : b.isEmpty = true
    · unfold Ival.adjacent_to
      simp [hbe]
    · have hbe2 : b.isEmpty = false := by simpa using hbe
      have haa := Ival.valid_nonempty ha hae2
      have hbb := Ival.valid_nonempty hb hbe2
      have hlhs : a.adjacent_to b = true ↔
          ((a.upper = b.lower ∧ a.rc ≠ b.lc) ∨
            (a.upper ≠ b.lower ∧ a.lower = b.upper ∧ a.lc ≠ b.rc)) := by
        unfold Ival.adjacent_to
        rw [hae2, hbe2]
        by_cases h2 : a.upper = b.lower
        · simp [h2, bne_iff_ne]
        · by_cases h4 : a.lower = b.upper
          · simp [h2, h4, bne_iff_ne]
          · simp [h2, h4]
      rw [hlhs]
      constructor
      · rintro (⟨h2, hxor⟩ | ⟨h2, h4, hxor⟩)
        · exact ⟨hae2, hbe2, Or.inl ⟨h2, hxor⟩⟩
        · exact ⟨hae2, hbe2, Or.inr ⟨h4, hxor⟩⟩
      · rintro ⟨-, -, (⟨h2, hxor⟩ | ⟨h4, hxor⟩)⟩
        · exact Or.inl ⟨h2, hxor⟩
        · by_cases h2 : a.upper = b.lower
          · exfalso
            have e1 : a.lower = a.upper := by
              refine EV.ble_antisymm haa.1 ?_
              rw [h2, h4]
              exact hbb.1
            have e2 : b.lower = b.upper := by
              refine EV.ble_antisymm hbb.1 ?_
              rw [← h2, ← h4]
              exact haa.1
            have hpa := haa.2 e1
            have hpb := hbb.2 e2
            rw [hpa.1, hpb.2] at hxor
            exact hxor rfl
          · exact Or.inr ⟨h2, h4, hxor⟩

/-- Witness for C7 at a concrete adjacent pair. -/
theorem claim_C7_adjacent_witness :
    ((Ival.right_open (.fin 0) (.fin 5)).adjacent_to (Ival.closed (.fin 5) (.fin 9)) = true ↔
      ((Ival.right_open (.fin 0) (.fin 5)).isEmpty = false ∧
        (Ival.closed (.fin 5) (.fin 9)).isEmpty = false ∧
        (((Ival.right_open (.fin 0) (.fin 5)).upper = (Ival.closed (.fin 5) (.fin 9)).lower ∧
            (Ival.right_open (.fin 0) (.fin 5)).rc ≠ (Ival.closed (.fin 5) (.fin 9)).lc) ∨
          ((Ival.right_open (.fin 0) (.fin 5)).lower = (Ival.closed (.fin 5) (.fin 9)).upper ∧
            (Ival.right_open (.fin 0) (.fin 5)).lc ≠ (Ival.closed (.fin 5) (.fin 9)).rc)))) :=
  claim_C7_adjacent (Ival.right_open (.fin 0) (.fin 5)) (Ival.closed (.fin 5) (.fin 9))
    (Ival.make_valid _ _ _ _) (Ival.make_valid _ _ _ _)

/-! ### Claim C9: unbounded factories -/

/-- C9: every unbounded factory produces an interval whose unbounded end is
open, and contains returns false at the exact infinity value of that end. -/
theorem claim_C9_unbounded_factories (v : EV) :
    Ival.unbounded.is_left_closed = false ∧ Ival.unbounded.is_right_closed = false ∧
    Ival.unbounded.contains EV.pinf = false ∧ Ival.unbounded.contains EV.ninf = false ∧
    (Ival.at_least v).is_right_closed = false ∧ (Ival.at_least v).contains EV.pinf = false ∧
    (Ival.at_most v).is_left_closed = false ∧ (Ival.at_most v).contains EV.ninf = false ∧
    (Ival.greater_than v).is_right_closed = false ∧
    (Ival.greater_than v).contains EV.pinf = false ∧
    (Ival.less_than v).is_left_closed = false ∧
    (Ival.less_than v).contains EV.ninf = false := by
  have hrc_pinf : ∀ i : Ival, i.rc = false → i.contains EV.pinf = false := by
    intro i h
    unfold Ival.contains
    cases he : i.isEmpty
    · simp [he, h, EV.pinf_not_blt]
    · simp [he]
  have hlc_ninf : ∀ i : Ival, i.lc = false → i.contains EV.ninf = false := by
    intro i h
    unfold Ival.contains
    cases he : i.isEmpty
    · simp [he, h, EV.not_blt_ninf]
    · simp [he]
  have hal : Ival.at_least v = if v = EV.pinf then Ival.emptyI else ⟨v, EV.pinf, true, false⟩ := by
    unfold Ival.at_least Ival.make
    by_cases hv : v = EV.pinf
    · simp [hv, EV.blt_irrefl]
    · simp [EV.blt_asymm (EV.blt_pinf_of_ne hv), hv]
  have ham : Ival.at_most v = if v = EV.ninf then Ival.emptyI else ⟨EV.ninf, v, false, true⟩ := by
    unfold Ival.at_most Ival.make
    by_cases hv : v = EV.ninf
    · simp [hv, EV.blt_irrefl]
    · have hv2 : ¬(EV.ninf = v) := fun h => hv h.symm
      simp [EV.blt_asymm (EV.ninf_blt_of_ne hv), hv2, hv]
  have hgt : Ival.greater_than v = if v = EV.pinf then Ival.emptyI else ⟨v, EV.pinf, false, false⟩ := by
    unfold Ival.greater_than Ival.make
    by_cases hv : v = EV.pinf
    · simp [hv, EV.blt_irrefl]
    · simp [EV.blt_asymm (EV.blt_pinf_of_ne hv), hv]
  have hlt : Ival.less_than v = if v = EV.ninf then Ival.emptyI else ⟨EV.ninf, v, false, false⟩ := by
    unfold Ival.less_than Ival.make
    by_cases hv : v = EV.ninf
    · simp [hv, EV.blt_irrefl]
    · have hv2 : ¬(EV.ninf = v) := fun h => hv h.symm
      simp [EV.blt_asymm (EV.ninf_blt_of_ne hv), hv2, hv]
  have hrc_at_least : (Ival.at_least v).rc = false := by
    rw [hal]; by_cases hv : v = EV.pinf <;> simp [hv, Ival.emptyI]
  have hrc_gt : (Ival.greater_than v).rc = false := by
    rw [hgt]; by_cases hv : v = EV.pinf <;> simp [hv, Ival.emptyI]
  have hlc_at_most : (Ival.at_most v).lc = false := by
    rw [ham]; by_cases hv : v = EV.ninf <;> simp [hv, Ival.emptyI]
  have hlc_lt : (Ival.less_than v).lc = false := by
    rw [hlt]; by_cases hv : v = EV.ninf <;> simp [hv, Ival.emptyI]
  refine ⟨by decide, by decide, by decide, by decide, ?_, ?_, ?_, ?_, ?_, ?_, ?_, ?_⟩
  · unfold Ival.is_right_closed
    rw [hrc_at_least]; simp
  · exact hrc_pinf _ hrc_at_least
  · unfold Ival.is_left_closed
    rw [hlc_at_most]; simp
  · exact hlc_ninf _ hlc_at_most
  · unfold Ival.is_right_closed
    rw [hrc_gt]; simp
  · exact hrc_pinf _ hrc_gt
  · unfold Ival.is_left_closed
    rw [hlc_lt]; simp
  · exact hlc_ninf _ hlc_lt

/-! ### Claims C5 and C6: pairwise intersect and hull -/

namespace EV

theorem minE_ble_left (a b : EV) : ble (minE a b) a = true := by
  unfold minE
  by_cases h : blt b a = true
  · simp [h, ble_of_blt h]
  · simp [h, ble_refl]

theorem minE_ble_right (a b : EV) : ble (minE a b) b = true := by
  unfold minE
  by_cases h : blt b a = true
  · simp [h, ble_refl]
  · simp [h, not_blt_iff_ble.mp (by simpa using h)]

theorem ble_maxE_left (a b : EV) : ble a (maxE a b) = true := by
  unfold maxE
  by_cases h : blt a b = true
  · simp [h, ble_of_blt h]
  · simp [h, ble_refl]

theorem ble_maxE_right (a b : EV) : ble b (maxE a b) = true := by
  unfold maxE
  by_cases h : blt a b = true
  · simp [h, ble_refl]
  · simp [h, not_blt_iff_ble.mp (by simpa using h)]

theorem blt_of_not_blt_of_ne {a b : EV} (h1 : blt a b = false) (h2 : a ≠ b) :
    blt b a = true := by
  cases blt_or_eq_of_ble (not_blt_iff_ble.mp h1) with
  | inl h => exact h
  | inr h => exact absurd h.symm h2

end EV

/-- Modelled from the spec (claim C5): the lower-boundary closedness of an
intersection — the operand providing the tighter (max) lower bound, with
logical AND at a tied bound. -/
def specInterLC (a b : Ival) : Bool :=
  if a.lower = b.lower then a.lc && b.lc
  else if EV.blt a.lower b.lower then b.lc else a.lc

/-- Modelled from the spec (claim C5): the upper-boundary closedness of an
intersection — the operand providing the tighter (min) upper bound, with
logical AND at a tied bound. -/
def specInterRC (a b : Ival) : Bool :=
  if a.upper = b.upper then a.rc && b.rc
  else if EV.blt a.upper b.upper then a.rc else b.rc

/-- The boundary-flag expressions computed by interval::intersect agree with
the spec-side definitions. -/
theorem inter_flags (a b : Ival) :
    ((if a.lower = b.lower then a.lc && b.lc
      else if EV.maxE a.lower b.lower = a.lower then a.lc else b.lc) = specInterLC a b) ∧
    ((if a.upper = b.upper then a.rc && b.rc
      else if EV.minE a.upper b.upper = a.upper then a.rc else b.rc) = specInterRC a b) := by
  constructor
  · unfold specInterLC
    by_cases h : a.lower = b.lower
    · simp [h]
    · rw [if_neg h, if_neg h]
      by_cases h2 : EV.blt a.lower b.lower = true
      · rw [if_pos h2, EV.maxE_eq_right h2, if_neg (fun hc => h hc.symm)]
      · have h3 : EV.blt b.lower a.lower = true :=
          EV.blt_of_not_blt_of_ne (by simpa using h2) h
        rw [if_neg h2, EV.maxE_eq_left (EV.ble_of_blt h3), if_pos rfl]
  · unfold specInterRC
    by_cases h : a.upper = b.upper
    · simp [h]
    · rw [if_neg h, if_neg h]
      by_cases h2 : EV.blt a.upper b.upper = true
      · rw [if_pos h2, EV.minE_eq_left (EV.ble_of_blt h2), if_pos rfl]
      · have h3 : EV.blt b.upper a.upper = true :=
          EV.blt_of_not_blt_of_ne (by simpa using h2) h
        rw [if_neg h2, EV.minE_eq_right h3, if_neg (fun hc => h hc.symm)]

/-- C5: intersect takes the max of the lower bounds and the min of the upper
bounds, ANDs closedness at a tied bound, and returns the empty interval when
either operand is empty, the bounds cross, or the result collapses to a
point that is not closed on both sides. -/
theorem claim_C5_intersect (a b : Ival) :
    ((a.isEmpty = true ∨ b.isEmpty = true) → a.inter b = Ival.emptyI) ∧
    (a.isEmpty = false → b.isEmpty = false →
      ((EV.blt (EV.minE a.upper b.upper) (EV.maxE a.lower b.lower) = true →
          a.inter b = Ival.emptyI) ∧
       (EV.minE a.upper b.upper = EV.maxE a.lower b.lower →
          ¬(specInterLC a b = true ∧ specInterRC a b = true) → a.inter b = Ival.emptyI) ∧
       ((a.inter b).isEmpty = false →
          (a.inter b).lower = EV.maxE a.lower b.lower ∧
          (a.inter b).upper = EV.minE a.upper b.upper ∧
          (a.inter b).lc = specInterLC a b ∧
          (a.inter b).rc = specInterRC a b))) := by
  constructor
  · intro h
    unfold Ival.inter
    rcases h with h | h <;> simp [h]
  · intro hae hbe
    have hcode : a.inter b =
        (if EV.blt (EV.minE a.upper b.upper) (EV.maxE a.lower b.lower) = true then Ival.emptyI
         else if EV.maxE a.lower b.lower = EV.minE a.upper b.upper ∧
                 (!(specInterLC a b) || !(specInterRC a b)) = true then Ival.emptyI
         else Ival.make (EV.maxE a.lower b.lower) (EV.minE a.upper b.upper)
                (specInterLC a b) (specInterRC a b)) := by
      unfold Ival.inter
      rw [hae, hbe]
      simp only [Bool.false_or, Bool.or_self, if_false, Bool.false_eq_true]
      rw [(inter_flags a b).1, (inter_flags a b).2]
      by_cases h1 : EV.blt (EV.minE a.upper b.upper) (EV.maxE a.lower b.lower) = true
      · simp [h1]
      · simp only [h1, if_false, Bool.false_eq_true]
        simp only [Bool.and_eq_true, decide_eq_true_eq]
    refine ⟨?_, ?_, ?_⟩
    · intro h1
      rw [hcode, if_pos h1]
    · intro heq hflag
      have h1 : EV.blt (EV.minE a.upper b.upper) (EV.maxE a.lower b.lower) = false := by
        rw [heq]; exact EV.blt_irrefl _
      rw [hcode, if_neg (by simp [h1]), if_pos]
      refine ⟨heq.symm, ?_⟩
      cases hx : specInterLC a b <;> cases hy : specInterRC a b <;> simp_all
    · intro hne
      rw [hcode] at hne ⊢
      by_cases h1 : EV.blt (EV.minE a.upper b.upper) (EV.maxE a.lower b.lower) = true
      · rw [if_pos h1] at hne
        rw [Ival.emptyI_isEmpty] at hne
        cases hne
      · rw [if_neg h1] at hne ⊢
        by_cases h2 : EV.maxE a.lower b.lower = EV.minE a.upper b.upper ∧
            (!(specInterLC a b) || !(specInterRC a b)) = true
        · rw [if_pos h2] at hne
          rw [Ival.emptyI_isEmpty] at hne
          cases hne
        · rw [if_neg h2] at hne ⊢
          have hmk : Ival.make (EV.maxE a.lower b.lower) (EV.minE a.upper b.upper)
              (specInterLC a b) (specInterRC a b) =
              ⟨EV.maxE a.lower b.lower, EV.minE a.upper b.upper,
                specInterLC a b, specInterRC a b⟩ := by
            refine Ival.make_id ?_
            cases EV.blt_or_eq_of_ble (EV.not_blt_iff_ble.mp (by simpa using h1)) with
            | inl h3 => exact Or.inl h3
            | inr h3 =>
              refine Or.inr ⟨h3, ?_⟩
              by_cases hx : specInterLC a b = true
              · by_cases hy : specInterRC a b = true
                · exact ⟨hx, hy⟩
                · exact absurd ⟨h3, by simp [hy]⟩ h2
              · exact absurd ⟨h3, by simp [hx]⟩ h2
          rw [hmk]
          exact ⟨rfl, rfl, rfl, rfl⟩

/-- Witness for C5 at a concrete overlapping pair. -/
theorem claim_C5_intersect_witness :
    ((Ival.closed (EV.fin 0) (EV.fin 10)).inter (Ival.closed (EV.fin 5) (EV.fin 20))).lower =
      EV.maxE (Ival.closed (EV.fin 0) (EV.fin 10)).lower (Ival.closed (EV.fin 5) (EV.fin 20)).lower ∧
    ((Ival.closed (EV.fin 0) (EV.fin 10)).inter (Ival.closed (EV.fin 5) (EV.fin 20))).upper =
      EV.minE (Ival.closed (EV.fin 0) (EV.fin 10)).upper (Ival.closed (EV.fin 5) (EV.fin 20)).upper ∧
    ((Ival.closed (EV.fin 0) (EV.fin 10)).inter (Ival.closed (EV.fin 5) (EV.fin 20))).lc =
      specInterLC (Ival.closed (EV.fin 0) (EV.fin 10)) (Ival.closed (EV.fin 5) (EV.fin 20)) ∧
    ((Ival.closed (EV.fin 0) (EV.fin 10)).inter (Ival.closed (EV.fin 5) (EV.fin 20))).rc =
      specInterRC (Ival.closed (EV.fin 0) (EV.fin 10)) (Ival.closed (EV.fin 5) (EV.fin 20)) :=
  ((claim_C5_intersect (Ival.closed (EV.fin 0) (EV.fin 10))
      (Ival.closed (EV.fin 5) (EV.fin 20))).2 (by decide) (by decide)).2.2 (by decide)

/-- Modelled from the spec (claim C6): the lower-boundary closedness of a
hull — the operand providing the looser (min) lower bound, with logical OR
at a tied bound. -/
def specHullLC (a b : Ival) : Bool :=
  if a.lower = b.lower then a.lc || b.lc
  else if EV.blt a.lower b.lower then a.lc else b.lc

/-- Modelled from the spec (claim C6): the upper-boundary closedness of a
hull — the operand providing the looser (max) upper bound, with logical OR
at a tied bound. -/
def specHullRC (a b : Ival) : Bool :=
  if a.upper = b.upper then a.rc || b.rc
  else if EV.blt a.upper b.upper then b.rc else a.rc

/-- The boundary-flag expressions computed by interval::hull agree with the
spec-side definitions. -/
theorem hull_flags (a b : Ival) :
    ((if a.lower = b.lower then a.lc || b.lc
      else if EV.minE a.lower b.lower = a.lower then a.lc else b.lc) = specHullLC a b) ∧
    ((if a.upper = b.upper then a.rc || b.rc
      else if EV.maxE a.upper b.upper = a.upper then a.rc else b.rc) = specHullRC a b) := by
  constructor
  · unfold specHullLC
    by_cases h : a.lower = b.lower
    · simp [h]
    · rw [if_neg h, if_neg h]
      by_cases h2 : EV.blt a.lower b.lower = true
      · rw [if_pos h2, EV.minE_eq_left (EV.ble_of_blt h2), if_pos rfl]
      · have h3 : EV.blt b.lower a.lower = true :=
          EV.blt_of_not_blt_of_ne (by simpa using h2) h
        rw [if_neg h2, EV.minE_eq_right h3, if_neg (fun hc => h hc.symm)]
  · unfold specHullRC
    by_cases h : a.upper = b.upper
    · simp [h]
    · rw [if_neg h, if_neg h]
      by_cases h2 : EV.blt a.upper b.upper = true
      · rw [if_pos h2, EV.maxE_eq_right h2, if_neg (fun hc => h hc.symm)]
      · have h3 : EV.blt b.upper a.upper = true :=
          EV.blt_of_not_blt_of_ne (by simpa using h2) h
        rw [if_neg h2, EV.maxE_eq_left (EV.ble_of_blt h3), if_pos rfl]

/-- C6: hull returns the other operand when one operand is empty; on two
non-empty operands it is undefined exactly when they neither overlap nor
are adjacent, and otherwise takes the min of the lower bounds and max of
the upper bounds, ORing closedness at a tied bound. -/
theorem claim_C6_hull (a b : Ival) (ha : a.Valid) (hb : b.Valid) :
    (a.isEmpty = true → a.hull b = some b) ∧
    (a.isEmpty = false → b.isEmpty = true → a.hull b = some a) ∧
    (a.isEmpty = false → b.isEmpty = false →
      ((a.hull b = none) ↔ (a.overlaps b = false ∧ a.adjacent_to b = false)) ∧
      (∀ m, a.hull b = some m →
        m.lower = EV.minE a.lower b.lower ∧ m.upper = EV.maxE a.upper b.upper ∧
        m.lc = specHullLC a b ∧ m.rc = specHullRC a b)) := by
  refine ⟨?_, ?_, ?_⟩
  · intro h
    unfold Ival.hull
    simp [h]
  · intro hae hbe
    unfold Ival.hull
    simp [hae, hbe]
  · intro hae hbe
    have haa := Ival.valid_nonempty ha hae
    have hbb := Ival.valid_nonempty hb hbe
    have hcode : a.hull b =
        (if a.overlaps b = false ∧ a.adjacent_to b = false then none
         else some (Ival.make (EV.minE a.lower b.lower) (EV.maxE a.upper b.upper)
            (specHullLC a b) (specHullRC a b))) := by
      unfold Ival.hull
      rw [hae, hbe]
      simp only [Bool.false_eq_true, if_false]
      rw [(hull_flags a b).1, (hull_flags a b).2]
      cases hov : a.overlaps b <;> cases hadj : a.adjacent_to b <;> simp
    refine ⟨?_, ?_⟩
    · rw [hcode]
      by_cases h1 : a.overlaps b = false ∧ a.adjacent_to b = false
      · rw [if_pos h1]
        simp [h1]
      · rw [if_neg h1]
        simp [h1]
    · intro m hm
      rw [hcode] at hm
      by_cases h1 : a.overlaps b = false ∧ a.adjacent_to b = false
      · rw [if_pos h1] at hm
        cases hm
      · rw [if_neg h1] at hm
        have hmm := Option.some.inj hm
        have hle : EV.ble (EV.minE a.lower b.lower) (EV.maxE a.upper b.upper) = true :=
          EV.ble_trans (EV.minE_ble_left a.lower b.lower)
            (EV.ble_trans haa.1 (EV.ble_maxE_left a.upper b.upper))
        have hmk : Ival.make (EV.minE a.lower b.lower) (EV.maxE a.upper b.upper)
            (specHullLC a b) (specHullRC a b) =
            ⟨EV.minE a.lower b.lower, EV.maxE a.upper b.upper,
              specHullLC a b, specHullRC a b⟩ := by
          refine Ival.make_id ?_
          cases EV.blt_or_eq_of_ble hle with
          | inl h3 => exact Or.inl h3
          | inr h3 =>
            refine Or.inr ⟨h3, ?_⟩
            have hal : EV.ble a.lower (EV.minE a.lower b.lower) = true := by
              refine EV.ble_trans haa.1 ?_
              rw [h3]
              exact EV.ble_maxE_left a.upper b.upper
            have hae2 : a.lower = a.upper := by
              refine EV.ble_antisymm haa.1 ?_
              refine EV.ble_trans ?_ (EV.minE_ble_left a.lower b.lower)
              rw [h3]
              exact EV.ble_maxE_left a.upper b.upper
            have hbl : EV.ble b.lower (EV.minE a.lower b.lower) = true := by
              refine EV.ble_trans hbb.1 ?_
              rw [h3]
              exact EV.ble_maxE_right a.upper b.upper
            have hbe2 : b.lower = b.upper := by
              refine EV.ble_antisymm hbb.1 ?_
              refine EV.ble_trans ?_ (EV.minE_ble_right a.lower b.lower)
              rw [h3]
              exact EV.ble_maxE_right a.upper b.upper
            have hpa := haa.2 hae2
            have hpb := hbb.2 hbe2
            have hll : a.lower = b.lower :=
              (EV.ble_antisymm (EV.minE_ble_left a.lower b.lower) hal).symm.trans
                (EV.ble_antisymm (EV.minE_ble_right a.lower b.lower) hbl)
            constructor
            · unfold specHullLC
              rw [if_pos hll, hpa.1]
              simp
            · unfold specHullRC
              have huu : a.upper = b.upper := by
                rw [← hae2, ← hbe2]
                exact hll
              rw [if_pos huu, hpa.2]
              simp
        rw [hmk] at hmm
        rw [← hmm]
        exact ⟨rfl, rfl, rfl, rfl⟩

/-- Witness for C6 at a concrete pair of valid overlapping intervals. -/
theorem claim_C6_hull_witness :
    (Ival.closed (EV.fin 0) (EV.fin 10)).hull (Ival.closed (EV.fin 5) (EV.fin 20)) =
      some (Ival.make (EV.fin 0) (EV.fin 20) true true) ∧
    ((Ival.make (EV.fin 0) (EV.fin 20) true true).lower =
        EV.minE (Ival.closed (EV.fin 0) (EV.fin 10)).lower
          (Ival.closed (EV.fin 5) (EV.fin 20)).lower ∧
      (Ival.make (EV.fin 0) (EV.fin 20) true true).upper =
        EV.maxE (Ival.closed (EV.fin 0) (EV.fin 10)).upper
          (Ival.closed (EV.fin 5) (EV.fin 20)).upper ∧
      (Ival.make (EV.fin 0) (EV.fin 20) true true).lc =
        specHullLC (Ival.closed (EV.fin 0) (EV.fin 10)) (Ival.closed (EV.fin 5) (EV.fin 20)) ∧
      (Ival.make (EV.fin 0) (EV.fin 20) true true).rc =
        specHullRC (Ival.closed (EV.fin 0) (EV.fin 10)) (Ival.closed (EV.fin 5) (EV.fin 20))) :=
  ⟨by decide,
    ((claim_C6_hull (Ival.closed (EV.fin 0) (EV.fin 10)) (Ival.closed (EV.fin 5) (EV.fin 20))
        (Ival.make_valid _ _ _ _) (Ival.make_valid _ _ _ _)).2.2 (by decide) (by decide)).2
      (Ival.make (EV.fin 0) (EV.fin 20) true true) (by decide)⟩

/-! ### Claim C8: a concrete difference -/

/-- C8: difference of the set containing only closed(0,10) with the set
containing only closed(3,5), computed as intersect with the complement,
yields exactly the two components right-open(0,3) and left-open(5,10). -/
theorem claim_C8_difference :
    (DIS.ofList [Ival.closed (EV.fin 0) (EV.fin 10)]).diff
        (DIS.ofList [Ival.closed (EV.fin 3) (EV.fin 5)]) =
      ⟨[Ival.right_open (EV.fin 0) (EV.fin 3), Ival.left_open (EV.fin 5) (EV.fin 10)]⟩ := by
  decide

/-! ### Claim C10: exact-match erase -/

theorem eraseFirst_none : ∀ (l : List Ival) (i : Ival),
    (∀ c ∈ l, c.eqb i = false) → DIS.eraseFirst l i = (0, l)
  | [], _, _ => rfl
  | x :: xs, i, h => by
    unfold DIS.eraseFirst
    rw [h x (by simp)]
    simp only [Bool.false_eq_true, if_false]
    rw [eraseFirst_none xs i (fun c hc => h c (List.mem_cons_of_mem x hc))]

theorem eraseFirst_found : ∀ (p : List Ival) (c : Ival) (q : List Ival) (i : Ival),
    (∀ x ∈ p, x.eqb i = false) → c.eqb i = true →
    DIS.eraseFirst (p ++ c :: q) i = (1, p ++ q)
  | [], c, q, i, _, hc => by
    unfold DIS.eraseFirst
    simp only [List.nil_append]
    rw [hc]
    simp
  | x :: p, c, q, i, hp, hc => by
    unfold DIS.eraseFirst
    simp only [List.cons_append]
    rw [hp x (by simp)]
    simp only [Bool.false_eq_true, if_false]
    rw [eraseFirst_found p c q i (fun y hy => hp y (List.mem_cons_of_mem x hy)) hc]

/-- C10: erase(i) returns 0 and leaves the set unchanged when no component
compares equal to i, and returns 1 removing exactly the first component
comparing equal to i, leaving every other component unchanged in order. -/
theorem claim_C10_erase (A : DIS) (i : Ival) :
    ((∀ c ∈ A.l, c.eqb i = false) → A.eraseI i = (0, A)) ∧
    (∀ p c q, A.l = p ++ c :: q → (∀ x ∈ p, x.eqb i = false) → c.eqb i = true →
      A.eraseI i = (1, ⟨p ++ q⟩)) := by
  constructor
  · intro h
    unfold DIS.eraseI
    rw [eraseFirst_none A.l i h]
  · intro p c q hsplit hp hc
    unfold DIS.eraseI
    rw [hsplit, eraseFirst_found p c q i hp hc]

/-- Witness for C10: erasing the second of two components. -/
theorem claim_C10_erase_witness :
    (DIS.mk [Ival.closed (EV.fin 0) (EV.fin 1), Ival.closed (EV.fin 3) (EV.fin 4)]).eraseI
        (Ival.closed (EV.fin 3) (EV.fin 4)) =
      (1, DIS.mk [Ival.closed (EV.fin 0) (EV.fin 1)]) := by
  have h := (claim_C10_erase
      (DIS.mk [Ival.closed (EV.fin 0) (EV.fin 1), Ival.closed (EV.fin 3) (EV.fin 4)])
      (Ival.closed (EV.fin 3) (EV.fin 4))).2
      [Ival.closed (EV.fin 0) (EV.fin 1)] (Ival.closed (EV.fin 3) (EV.fin 4)) []
      rfl (by decide) (by decide)
  simpa using h

/-! ### Claim C4: span (corrected) -/

/-- Counterexample to C4 as stated: the single (hence first and last)
component of this collection is open on both sides, yet span() is closed on
both sides — span does not take boundary closedness from the extreme
components; it always closes both ends. -/
theorem claim_C4_counterexample :
    (DIS.ofList [Ival.opn (EV.fin 0) (EV.fin 1)]).l = [Ival.opn (EV.fin 0) (EV.fin 1)] ∧
    (Ival.opn (EV.fin 0) (EV.fin 1)).is_left_closed = false ∧
    (Ival.opn (EV.fin 0) (EV.fin 1)).is_right_closed = false ∧
    (DIS.ofList [Ival.opn (EV.fin 0) (EV.fin 1)]).span.is_left_closed = true ∧
    (DIS.ofList [Ival.opn (EV.fin 0) (EV.fin 1)]).span.is_right_closed = true := by
  decide

/-- C4 (amended): for a non-empty collection span() returns the closed
interval from the first component's lower bound to the last component's
upper bound — closed on both sides regardless of the extreme components'
own boundary closedness; for an empty collection span() is empty. -/
theorem claim_C4_span (A : DIS) (hA : A.Inv) :
    (A.l = [] → A.span = Ival.emptyI) ∧
    (A.l ≠ [] → A.span.isEmpty = false ∧ A.span.lc = true ∧ A.span.rc = true ∧
      A.span.lower = A.l.headI.lower ∧ A.span.upper = (A.l.getLastD Ival.emptyI).upper) := by
  match hAl : A.l with
  | [] =>
    constructor
    · intro h
      unfold DIS.span
      rw [hAl]
    · intro h
      exact absurd rfl h
  | c :: cs =>
    constructor
    · intro h
      cases h
    intro h
    have hgood : ∀ i ∈ c :: cs, DIS.Good i := by
      rw [← hAl]; exact hA.2
    have hgc : DIS.Good c := hgood c (by simp)
    have hlast_mem : cs.getLastD c ∈ c :: cs := List.getLastD_mem_cons cs c
    have hglast : DIS.Good (cs.getLastD c) := hgood _ hlast_mem
    have hble : EV.ble c.lower (cs.getLastD c).upper = true := by
      rcases List.mem_cons.mp hlast_mem with h | h
      · rw [h]
        exact DIS.good_ble hgc
      · have hpair : c.cmp (cs.getLastD c) = Ordering.lt ∧
            c.overlaps (cs.getLastD c) = false ∧ c.adjacent_to (cs.getLastD c) = false := by
          have hp := hA.1
          rw [hAl] at hp
          exact (List.pairwise_cons.mp hp).1 _ h
        have hsep : DIS.Sep c (cs.getLastD c) :=
          DIS.inv_pair_to_sep hgc hglast hpair.1 hpair.2.1 hpair.2.2
        have h1 : EV.ble c.upper (cs.getLastD c).lower = true := by
          cases hsep with
          | inl hx => exact EV.ble_of_blt hx
          | inr hx => exact EV.ble_of_eq hx.1
        exact EV.ble_trans (DIS.good_ble hgc)
          (EV.ble_trans h1 (DIS.good_ble hglast))
    have hcond : EV.blt c.lower (cs.getLastD c).upper = true ∨
        (c.lower = (cs.getLastD c).upper ∧ true = true ∧ true = true) := by
      cases EV.blt_or_eq_of_ble hble with
      | inl h => exact Or.inl h
      | inr h => exact Or.inr ⟨h, rfl, rfl⟩
    have hspan : A.span = Ival.make c.lower (cs.getLastD c).upper true true := by
      unfold DIS.span
      rw [hAl]
    rw [hspan, Ival.make_id hcond]
    refine ⟨?_, rfl, rfl, rfl, ?_⟩
    · have := Ival.make_isEmpty_false hcond
      rw [Ival.make_id hcond] at this
      exact this
    · rw [List.getLastD_cons]

/-! ### The sort order, characterized -/

namespace DIS

/-- Propositional form of the non-strict interval ordering for non-empty
intervals: lexicographic on (lower, left-closed-first, upper,
right-closed-first). -/
def Below (a b : Ival) : Prop :=
  EV.ble a.lower b.lower = true ∧
  (a.lower = b.lower →
    ((b.lc = true → a.lc = true) ∧
     (a.lc = b.lc →
       (EV.ble a.upper b.upper = true ∧
        (a.upper = b.upper → (b.rc = true → a.rc = true))))))
theorem cmp_not_gt_iff_below {a b : Ival} (hae : a.isEmpty = false)
    (hbe : b.isEmpty = false) : a.cmp b ≠ Ordering.gt ↔ Below a b := by
  unfold Ival.cmp Below
  rw [hae, hbe]
  simp only [Bool.false_and, Bool.false_eq_true, if_false]
  rcases EV.tri a.lower b.lower with h1 | h1 | h1
  · rw [if_pos h1]
    constructor
    · intro _
      exact ⟨EV.ble_of_blt h1, fun he => absurd he (EV.blt_ne h1)⟩
    · intro _ hcon
      cases hcon
  · have h1f : EV.blt a.lower b.lower = false := by rw [h1]; exact EV.blt_irrefl _
    have h1g : EV.blt b.lower a.lower = false := by rw [h1]; exact EV.blt_irrefl _
    rw [if_neg (by simp [h1f])]
    rw [if_neg (by simp [h1g])]
    by_cases hlc : a.lc = b.lc
    · rw [if_neg (by simp [hlc])]
      rcases EV.tri a.upper b.upper with h3 | h3 | h3
      · rw [if_pos h3]
        constructor
        · intro _
          exact ⟨EV.ble_of_eq h1, fun _ => ⟨fun hx => by rw [hlc, hx], fun _ =>
            ⟨EV.ble_of_blt h3, fun he => absurd he (EV.blt_ne h3)⟩⟩⟩
        · intro _ hcon
          cases hcon
      · have h3f : EV.blt a.upper b.upper = false := by rw [h3]; exact EV.blt_irrefl _
        have h3g : EV.blt b.upper a.upper = false := by rw [h3]; exact EV.blt_irrefl _
        rw [if_neg (by simp [h3f])]
        rw [if_neg (by simp [h3g])]
        by_cases hrc : a.rc = b.rc
        · rw [if_neg (by simp [hrc])]
          constructor
          · intro _
            exact ⟨EV.ble_of_eq h1, fun _ => ⟨fun hx => by rw [hlc, hx], fun _ =>
              ⟨EV.ble_of_eq h3, fun _ hx => by rw [hrc, hx]⟩⟩⟩
          · intro _ hcon
            cases hcon
        · rw [if_pos (by simp [hrc])]
          cases har : a.rc
          · simp only [Bool.false_eq_true, if_false]
            constructor
            · intro hcon
              exact absurd rfl hcon
            · intro hB hcon
              have hbr : b.rc = true := by
                cases hbr2 : b.rc
                · exact absurd (har.trans hbr2.symm) hrc
                · rfl
              exact ((hB.2 h1).2 hlc).2 h3 hbr
          · simp only [if_true]
            constructor
            · intro _
              exact ⟨EV.ble_of_eq h1, fun _ => ⟨fun hx => by rw [hlc, hx], fun _ =>
                ⟨EV.ble_of_eq h3, fun _ _ => by trivial⟩⟩⟩
            · intro _ hcon
              cases hcon
      · have h3f : EV.blt a.upper b.upper = false := EV.blt_asymm h3
        rw [if_neg (by simp [h3f])]
        rw [if_pos h3]
        constructor
        · intro hcon
          exact absurd rfl hcon
        · intro hB hcon
          have hx := ((hB.2 h1).2 hlc).1
          simp [EV.ble, h3] at hx
    · rw [if_pos (by simp [hlc])]
      cases hal : a.lc
      · simp only [Bool.false_eq_true, if_false]
        constructor
        · intro hcon
          exact absurd rfl hcon
        · intro hB hcon
          have hbl : b.lc = true := by
            cases hbl2 : b.lc
            · exact absurd (hal.trans hbl2.symm) hlc
            · rfl
          exact (hB.2 h1).1 hbl
      · simp only [if_true]
        constructor
        · intro _
          exact ⟨EV.ble_of_eq h1, fun _ => ⟨fun _ => by trivial, fun hx => absurd (hal.trans hx) hlc⟩⟩
        · intro _ hcon
          cases hcon
  · have h1f : EV.blt a.lower b.lower = false := EV.blt_asymm h1
    rw [if_neg (by simp [h1f])]
    rw [if_pos h1]
    constructor
    · intro hcon
      exact absurd rfl hcon
    · intro hB hcon
      have hx := hB.1
      simp [EV.ble, h1] at hx

theorem below_trans {a b c : Ival} (h1 : Below a b) (h2 : Below b c) : Below a c := by
  obtain ⟨hab, hab2⟩ := h1
  obtain ⟨hbc, hbc2⟩ := h2
  refine ⟨EV.ble_trans hab hbc, ?_⟩
  intro hac
  have habl : a.lower = b.lower := by
    refine EV.ble_antisymm hab ?_
    rw [hac]
    exact hbc
  have hbcl : b.lower = c.lower := by
    rw [← habl]
    exact hac
  have hA := hab2 habl
  have hB := hbc2 hbcl
  refine ⟨fun hc => hA.1 (hB.1 hc), ?_⟩
  intro hlcac
  have hblc : b.lc = a.lc := by
    cases hcv : c.lc <;> cases hbv : b.lc <;> cases hav : a.lc <;> simp_all
  have hA2 := hA.2 hblc.symm
  have hB2 := hB.2 (by rw [hblc, hlcac])
  refine ⟨EV.ble_trans hA2.1 hB2.1, ?_⟩
  intro hacu
  have habu : a.upper = b.upper := by
    refine EV.ble_antisymm hA2.1 ?_
    rw [hacu]
    exact hB2.1
  have hbcu : b.upper = c.upper := by
    rw [← habu]
    exact hacu
  exact fun hc => hA2.2 habu (hB2.2 hbcu hc)

theorem below_total (a b : Ival) : Below a b ∨ Below b a := by
  unfold Below
  rcases EV.tri a.lower b.lower with h1 | h1 | h1
  · exact Or.inl ⟨EV.ble_of_blt h1, fun he => absurd he (EV.blt_ne h1)⟩
  · by_cases hlc : a.lc = b.lc
    · rcases EV.tri a.upper b.upper with h3 | h3 | h3
      · exact Or.inl ⟨EV.ble_of_eq h1, fun _ => ⟨fun hx => by rw [hlc, hx], fun _ =>
          ⟨EV.ble_of_blt h3, fun he => absurd he (EV.blt_ne h3)⟩⟩⟩
      · by_cases hrc : a.rc = b.rc
        · exact Or.inl ⟨EV.ble_of_eq h1, fun _ => ⟨fun hx => by rw [hlc, hx], fun _ =>
            ⟨EV.ble_of_eq h3, fun _ hx => by rw [hrc, hx]⟩⟩⟩
        · cases har : a.rc
          · refine Or.inr ⟨EV.ble_of_eq h1.symm, fun _ => ⟨fun hx => by rw [← hlc]; exact hx, fun _ =>
              ⟨EV.ble_of_eq h3.symm, fun _ hx => absurd hx (by simp)⟩⟩⟩
          · exact Or.inl ⟨EV.ble_of_eq h1, fun _ => ⟨fun hx => by rw [hlc, hx], fun _ =>
              ⟨EV.ble_of_eq h3, fun _ _ => rfl⟩⟩⟩
      · exact Or.inr ⟨EV.ble_of_eq h1.symm, fun _ => ⟨fun hx => by rw [← hlc]; exact hx, fun _ =>
          ⟨EV.ble_of_blt h3, fun he => absurd he (EV.blt_ne h3)⟩⟩⟩
    · cases hal : a.lc
      · have hbl : b.lc = true := by
          cases hbl2 : b.lc
          · exact absurd (hal.trans hbl2.symm) hlc
          · rfl
        exact Or.inr ⟨EV.ble_of_eq h1.symm, fun _ => ⟨fun _ => hbl, fun hx =>
          absurd (hbl.symm.trans hx) (by simp)⟩⟩
      · exact Or.inl ⟨EV.ble_of_eq h1, fun _ => ⟨fun _ => rfl, fun hx => absurd (hal.trans hx) hlc⟩⟩
  · exact Or.inr ⟨EV.ble_of_blt h1, fun he => absurd he (EV.blt_ne h1)⟩

end DIS

instance : IsTrans Ival ile where
  trans := by
    intro a b c hab hbc
    unfold ile at hab hbc ⊢
    by_cases hae : a.isEmpty = true
    · unfold Ival.cmp
      by_cases hce : c.isEmpty = true
      · simp [hae, hce]
      · simp [hae, hce, by simpa using hce]
    · have hae2 : a.isEmpty = false := by simpa using hae
      by_cases hbe : b.isEmpty = true
      · exfalso
        unfold Ival.cmp at hab
        simp [hae2, hbe] at hab
      · have hbe2 : b.isEmpty = false := by simpa using hbe
        by_cases hce : c.isEmpty = true
        · exfalso
          unfold Ival.cmp at hbc
          simp [hbe2, hce] at hbc
        · have hce2 : c.isEmpty = false := by simpa using hce
          rw [DIS.cmp_not_gt_iff_below hae2 hce2]
          exact DIS.below_trans ((DIS.cmp_not_gt_iff_below hae2 hbe2).mp hab)
            ((DIS.cmp_not_gt_iff_below hbe2 hce2).mp hbc)

instance : IsTotal Ival ile where
  total := by
    intro a b
    unfold ile
    by_cases hae : a.isEmpty = true
    · left
      unfold Ival.cmp
      by_cases hbe : b.isEmpty = true <;> simp [hae, hbe]
    · have hae2 : a.isEmpty = false := by simpa using hae
      by_cases hbe : b.isEmpty = true
      · right
        unfold Ival.cmp
        simp [hae2, hbe]
      · have hbe2 : b.isEmpty = false := by simpa using hbe
        rw [DIS.cmp_not_gt_iff_below hae2 hbe2, DIS.cmp_not_gt_iff_below hbe2 hae2]
        exact DIS.below_total a b

/-! ### The merge sweep establishes separation -/

namespace EV

theorem maxE_ble_of {a b c : EV} (h1 : ble a c = true) (h2 : ble b c = true) :
    ble (maxE a b) c = true := by
  unfold maxE
  by_cases h : blt a b = true <;> simp [h, h1, h2]

end EV

namespace DIS

theorem good_is_left_closed {i : Ival} (h : Good i) : i.is_left_closed = i.lc := by
  unfold Ival.is_left_closed
  rw [h.2]
  simp

theorem good_is_right_closed {i : Ival} (h : Good i) : i.is_right_closed = i.rc := by
  unfold Ival.is_right_closed
  rw [h.2]
  simp

/-- When the merge sweep fails to hull, the accumulator is separated from
the next interval. -/
theorem hull_none_sep {a b : Ival} (ha : Good a) (hb : Good b) (hab : Below a b)
    (hm : a.hull b = none) : Sep a b := by
  unfold Ival.hull at hm
  rw [ha.2, hb.2] at hm
  simp only [Bool.false_eq_true, if_false] at hm
  by_cases hc : (!(a.overlaps b) && !(a.adjacent_to b)) = true
  · have hov : a.overlaps b = false := by
      cases hx : a.overlaps b
      · rfl
      · rw [hx] at hc; simp at hc
    have hadj : a.adjacent_to b = false := by
      cases hx : a.adjacent_to b
      · rfl
      · rw [hx] at hc; simp at hc
    exact sep_of_separated ha hb hab.1 hov hadj
  · rw [if_neg (by simpa using hc)] at hm
    cases hm

/-- Below implies the hull keeps the accumulator's left boundary data. -/
theorem below_specHullLC {a b : Ival} (hab : Below a b) : specHullLC a b = a.lc := by
  unfold specHullLC
  by_cases h : a.lower = b.lower
  · rw [if_pos h]
    have := (hab.2 h).1
    cases hx : a.lc <;> cases hy : b.lc <;> simp_all
  · rw [if_neg h]
    cases EV.blt_or_eq_of_ble hab.1 with
    | inl h2 => rw [if_pos h2]
    | inr h2 => exact absurd h2 h

/-- A successful hull of the accumulator with the next interval in sorted
order: exact resulting fields, and goodness. -/
theorem hull_merge_fields {a b : Ival} (ha : Good a) (hb : Good b) (hab : Below a b)
    {m : Ival} (hm : a.hull b = some m) :
    m = ⟨a.lower, EV.maxE a.upper b.upper, a.lc, specHullRC a b⟩ ∧ Good m := by
  unfold Ival.hull at hm
  rw [ha.2, hb.2] at hm
  simp only [Bool.false_eq_true, if_false] at hm
  by_cases hc : (!(a.overlaps b) && !(a.adjacent_to b)) = true
  · rw [if_pos hc] at hm
    cases hm
  · rw [if_neg hc] at hm
    rw [(hull_flags a b).1, (hull_flags a b).2] at hm
    rw [EV.minE_eq_left hab.1, below_specHullLC hab] at hm
    have hcond : EV.blt a.lower (EV.maxE a.upper b.upper) = true ∨
        (a.lower = EV.maxE a.upper b.upper ∧ a.lc = true ∧ specHullRC a b = true) := by
      have hle : EV.ble a.lower (EV.maxE a.upper b.upper) = true :=
        EV.ble_trans (good_ble ha) (EV.ble_maxE_left a.upper b.upper)
      cases EV.blt_or_eq_of_ble hle with
      | inl h => exact Or.inl h
      | inr h =>
        refine Or.inr ⟨h, ?_, ?_⟩
        · have hau : a.lower = a.upper := by
            refine EV.ble_antisymm (good_ble ha) ?_
            rw [h]
            exact EV.ble_maxE_left a.upper b.upper
          exact (good_point ha hau).1
        · have hau : a.lower = a.upper := by
            refine EV.ble_antisymm (good_ble ha) ?_
            rw [h]
            exact EV.ble_maxE_left a.upper b.upper
          have hbu : b.lower = b.upper := by
            refine EV.ble_antisymm (good_ble hb) ?_
            have hx : EV.ble b.upper (EV.maxE a.upper b.upper) = true :=
              EV.ble_maxE_right a.upper b.upper
            rw [← h] at hx
            exact EV.ble_trans hx hab.1
          have huu : a.upper = b.upper := by
            rw [← hau, ← hbu]
            refine EV.ble_antisymm hab.1 ?_
            have hx : EV.ble b.lower (EV.maxE a.upper b.upper) = true := by
              rw [hbu]
              exact EV.ble_maxE_right a.upper b.upper
            rw [← h] at hx
            exact hx
          unfold specHullRC
          rw [if_pos huu, (good_point ha hau).2]
          simp
    have hmk := Ival.make_id hcond
    have hmm := Option.some.inj hm
    rw [hmk] at hmm
    refine ⟨hmm.symm, ?_⟩
    rw [← hmm]
    constructor
    · rw [← hmk]
      exact Ival.make_valid _ _ _ _
    · have hne := Ival.make_isEmpty_false hcond
      rw [hmk] at hne
      exact hne

/-- Merging preserves the Below relation with all later intervals. -/
theorem below_hull_pres {a b c m : Ival} (ha : Good a) (hb : Good b)
    (hab : Below a b) (hm : a.hull b = some m)
    (hac : Below a c) (hbc : Below b c) : Below m c := by
  obtain ⟨hfields, -⟩ := hull_merge_fields ha hb hab hm
  subst hfields
  refine ⟨hac.1, ?_⟩
  intro htie
  have hA := hac.2 htie
  refine ⟨hA.1, ?_⟩
  intro hlcac
  have hbl : b.lower = c.lower := by
    refine EV.ble_antisymm ?_ ?_
    · exact hbc.1
    · rw [← htie]
      exact hab.1
  have habl : a.lower = b.lower := by
    rw [htie, ← hbl]
  have hblc : b.lc = c.lc := by
    have h1 := (hab.2 habl).1
    have h2 := (hbc.2 hbl).1
    cases hx : a.lc <;> cases hy : b.lc <;> cases hz : c.lc <;> simp_all
  have hA2 := hA.2 hlcac
  have hB2 := (hbc.2 hbl).2 hblc
  refine ⟨EV.maxE_ble_of hA2.1 hB2.1, ?_⟩
  intro hmu hcrc
  unfold specHullRC
  by_cases huu : a.upper = b.upper
  · rw [if_pos huu]
    have hmx : EV.maxE a.upper b.upper = a.upper := by
      rw [huu]
      exact EV.maxE_eq_left (EV.ble_refl _)
    rw [hmx] at hmu
    rw [hA2.2 hmu hcrc]
    simp
  · rw [if_neg huu]
    by_cases hlt : EV.blt a.upper b.upper = true
    · rw [if_pos hlt]
      have hmx : EV.maxE a.upper b.upper = b.upper := EV.maxE_eq_right hlt
      rw [hmx] at hmu
      exact hB2.2 hmu hcrc
    · rw [if_neg hlt]
      have h3 : EV.blt b.upper a.upper = true :=
        EV.blt_of_not_blt_of_ne (by simpa using hlt) huu
      have hmx : EV.maxE a.upper b.upper = a.upper :=
        EV.maxE_eq_left (EV.ble_of_blt h3)
      rw [hmx] at hmu
      exact hA2.2 hmu hcrc

/-- The merge sweep: structure, separation chain, and goodness of its
output. -/
theorem mergeLoop_spec : ∀ (xs : List Ival) (cur : Ival), Good cur →
    (∀ i ∈ xs, Good i) → (∀ i ∈ xs, Below cur i) → xs.Pairwise Below →
    (∃ hd tl, mergeLoop cur xs = hd :: tl ∧ hd.lower = cur.lower ∧ hd.lc = cur.lc) ∧
    (mergeLoop cur xs).Chain' Sep ∧ (∀ i ∈ mergeLoop cur xs, Good i)
  | [], cur, hcur, _, _, _ => by
    refine ⟨⟨cur, [], rfl, rfl, rfl⟩, ?_, ?_⟩
    · simp [mergeLoop]
    · intro i hi
      rw [mergeLoop] at hi
      rcases List.mem_singleton.mp hi with h
      rw [h]
      exact hcur
  | x :: xs, cur, hcur, hg, hbel, hpw => by
    have hgx : Good x := hg x (by simp)
    have hbx : Below cur x := hbel x (by simp)
    have hgxs : ∀ i ∈ xs, Good i := fun i hi => hg i (List.mem_cons_of_mem x hi)
    have hpwx : xs.Pairwise Below := (List.pairwise_cons.mp hpw).2
    have hbxs : ∀ i ∈ xs, Below x i := (List.pairwise_cons.mp hpw).1
    cases hm : cur.hull x with
    | some m =>
      have hmf := hull_merge_fields hcur hgx hbx hm
      have hgm : Good m := hmf.2
      have hbm : ∀ i ∈ xs, Below m i := fun i hi =>
        below_hull_pres hcur hgx hbx hm (hbel i (List.mem_cons_of_mem x hi)) (hbxs i hi)
      have ih := mergeLoop_spec xs m hgm hgxs hbm hpwx
      have hml : mergeLoop cur (x :: xs) = mergeLoop m xs := by
        rw [mergeLoop, hm]
      rw [hml]
      refine ⟨?_, ih.2.1, ih.2.2⟩
      obtain ⟨hd, tl, heq, hl, hc⟩ := ih.1
      refine ⟨hd, tl, heq, ?_, ?_⟩
      · rw [hl, hmf.1]
      · rw [hc, hmf.1]
    | none =>
      have hsep : Sep cur x := hull_none_sep hcur hgx hbx hm
      have ih := mergeLoop_spec xs x hgx hgxs hbxs hpwx
      have hml : mergeLoop cur (x :: xs) = cur :: mergeLoop x xs := by
        rw [mergeLoop, hm]
      rw [hml]
      obtain ⟨hd, tl, heq, hl, hc⟩ := ih.1
      refine ⟨⟨cur, mergeLoop x xs, rfl, rfl, rfl⟩, ?_, ?_⟩
      · rw [List.chain'_cons']
        refine ⟨?_, ih.2.1⟩
        intro y hy
        rw [heq] at hy
        simp only [List.head?_cons, Option.mem_def, Option.some.injEq] at hy
        rw [← hy]
        cases hsep with
        | inl h =>
          left
          rw [hl]
          exact h
        | inr h =>
          right
          rw [hl, hc]
          exact h
      · intro i hi
        rcases List.mem_cons.mp hi with h | h
        · rw [h]
          exact hcur
        · exact ih.2.2 i h

end DIS

namespace DIS

/-- normalize establishes the separation invariant on any multiset of good
intervals. -/
theorem normalizeList_invAux (l : List Ival) (hg : ∀ i ∈ l, Good i) :
    (normalizeList l).Chain' Sep ∧ ∀ i ∈ normalizeList l, Good i := by
  unfold normalizeList
  by_cases hlen : l.length ≤ 1
  · rw [if_pos hlen]
    match l, hlen with
    | [], _ => exact ⟨List.chain'_nil, by simp⟩
    | [x], _ =>
      refine ⟨List.chain'_singleton x, ?_⟩
      intro i hi
      rcases List.mem_singleton.mp hi with h
      rw [h]
      exact hg x (by simp)
  · rw [if_neg hlen]
    have hsorted : (List.insertionSort ile l).Sorted ile := List.sorted_insertionSort ile l
    have hgs : ∀ i ∈ List.insertionSort ile l, Good i := by
      intro i hi
      exact hg i ((List.mem_insertionSort ile).mp hi)
    match hs : List.insertionSort ile l with
    | [] => exact ⟨List.chain'_nil, by simp⟩
    | x :: xs =>
      rw [hs] at hsorted hgs
      have hgx : Good x := hgs x (by simp)
      have hgxs : ∀ i ∈ xs, Good i := fun i hi => hgs i (List.mem_cons_of_mem x hi)
      have hpw : (x :: xs).Pairwise ile := hsorted
      have hbx : ∀ i ∈ xs, Below x i := by
        intro i hi
        exact (cmp_not_gt_iff_below hgx.2 (hgxs i hi).2).mp
          ((List.pairwise_cons.mp hpw).1 i hi)
      have hpwb : xs.Pairwise Below := by
        refine List.Pairwise.imp_of_mem ?_ (List.pairwise_cons.mp hpw).2
        intro a b hma hmb hr
        exact (cmp_not_gt_iff_below (hgxs a hma).2 (hgxs b hmb).2).mp hr
      have hspec := mergeLoop_spec xs x hgx hgxs hbx hpwb
      exact ⟨hspec.2.1, hspec.2.2⟩

/-- The merge sweep leaves an already separated chain unchanged. -/
theorem mergeLoop_id : ∀ (xs : List Ival) (x : Ival), Good x → (∀ i ∈ xs, Good i) →
    (x :: xs).Chain' Sep → mergeLoop x xs = x :: xs
  | [], x, _, _, _ => rfl
  | y :: xs, x, hgx, hg, hc => by
    have hxy : Sep x y := (List.chain'_cons.mp hc).1
    have hgy : Good y := hg y (by simp)
    have hnone : x.hull y = none := by
      unfold Ival.hull
      rw [hgx.2, hgy.2]
      have hp := sep_to_inv_pair hgx hgy hxy
      simp [hp.2.1, hp.2.2]
    rw [mergeLoop, hnone]
    rw [mergeLoop_id xs y hgy (fun i hi => hg i (List.mem_cons_of_mem y hi))
      (List.chain'_cons.mp hc).2]

/-- normalize is the identity on a separated chain of good components; in
particular normalize is idempotent. -/
theorem normalizeList_fixed (l : List Ival) (hg : ∀ i ∈ l, Good i)
    (hc : l.Chain' Sep) : normalizeList l = l := by
  unfold normalizeList
  by_cases hlen : l.length ≤ 1
  · rw [if_pos hlen]
  · rw [if_neg hlen]
    have hsort : List.insertionSort ile l = l := by
      refine List.Sorted.insertionSort_eq ?_
      have hps := chain_sep_pairwise l hg hc
      refine List.Pairwise.imp_of_mem ?_ hps
      intro a b hma hmb hr
      have := sep_to_inv_pair (hg a hma) (hg b hmb) hr
      unfold ile
      rw [this.1]
      simp
    rw [hsort]
    match hl : l, hg, hc with
    | [], _, _ => rfl
    | x :: xs, hg2, hc2 =>
      exact mergeLoop_id xs x (hg2 x (by simp))
        (fun i hi => hg2 i (List.mem_cons_of_mem x hi)) hc2

end DIS

namespace DIS

instance : DecidablePred Inv := fun A => by
  unfold Inv
  infer_instance

instance : DecidablePred InvAux := fun A => by
  unfold InvAux Sep
  infer_instance

/-- The gap between two sides of one good component separates the adjoining
complement pieces. -/
theorem sep_gap {m P Q : Ival} (hm : Good m) (h1 : P.upper = m.lower)
    (h2 : P.rc = !m.lc) (h3 : Q.lower = m.upper) (h4 : Q.lc = !m.rc) : Sep P Q := by
  unfold Sep
  rw [h1, h2, h3, h4]
  cases EV.blt_or_eq_of_ble (good_ble hm) with
  | inl h => exact Or.inl h
  | inr h =>
    have hpt := good_point hm h
    refine Or.inr ⟨h, ?_, ?_⟩
    · rw [hpt.1]
      rfl
    · rw [hpt.2]
      rfl

/-- The complement piece between two separated good components: exact
fields, and goodness. -/
theorem piece_fields {a b : Ival} (ha : Good a) (hb : Good b) (hs : Sep a b) :
    Ival.make a.upper b.lower (!a.is_right_closed) (!b.is_left_closed) =
      ⟨a.upper, b.lower, !a.rc, !b.lc⟩ ∧
    Good (Ival.make a.upper b.lower (!a.is_right_closed) (!b.is_left_closed)) := by
  rw [good_is_right_closed ha, good_is_left_closed hb]
  have hcond : EV.blt a.upper b.lower = true ∨
      (a.upper = b.lower ∧ (!a.rc) = true ∧ (!b.lc) = true) := by
    cases hs with
    | inl h => exact Or.inl h
    | inr h =>
      refine Or.inr ⟨h.1, ?_, ?_⟩
      · rw [h.2.1]
        rfl
      · rw [h.2.2]
        rfl
  refine ⟨Ival.make_id hcond, Ival.make_valid _ _ _ _, Ival.make_isEmpty_false hcond⟩

/-- The inter-component pieces of the complement are good. -/
theorem compBetween_good : ∀ (l : List Ival), (∀ i ∈ l, Good i) → l.Chain' Sep →
    ∀ p ∈ compBetween l, Good p
  | [], _, _, p, hp => by cases hp
  | [_], _, _, p, hp => by
    unfold compBetween at hp
    cases hp
  | a :: b :: rest, hg, hc, p, hp => by
    unfold compBetween at hp
    rcases List.mem_cons.mp hp with h | h
    · rw [h]
      exact (piece_fields (hg a (by simp)) (hg b (by simp))
        (List.chain'_cons.mp hc).1).2
    · exact compBetween_good (b :: rest) (fun i hi => hg i (List.mem_cons_of_mem a hi))
        (List.chain'_cons.mp hc).2 p h

/-- The complement list, prefixed with any piece ending at the first
component's left boundary and suffixed by any chain starting at the last
component's right boundary, is a separated chain. -/
theorem compBetween_chain : ∀ (cs : List Ival) (c P : Ival) (T : List Ival),
    Good c → (∀ i ∈ cs, Good i) → (c :: cs).Chain' Sep →
    P.upper = c.lower → P.rc = !c.lc →
    (∀ t ∈ T.head?, t.lower = (cs.getLastD c).upper ∧ t.lc = !(cs.getLastD c).rc) →
    T.Chain' Sep →
    (P :: (compBetween (c :: cs) ++ T)).Chain' Sep
  | [], c, P, T, hgc, _, _, hP1, hP2, hT, hTc => by
    unfold compBetween
    rw [List.nil_append]
    rw [List.chain'_cons']
    refine ⟨?_, hTc⟩
    intro t ht
    have := hT t ht
    exact sep_gap hgc hP1 hP2 this.1 this.2
  | c' :: cs', c, P, T, hgc, hg, hc, hP1, hP2, hT, hTc => by
    have hgc' : Good c' := hg c' (by simp)
    have hsep : Sep c c' := (List.chain'_cons.mp hc).1
    have hpf := piece_fields hgc hgc' hsep
    have hstep : compBetween (c :: c' :: cs') =
        Ival.make c.upper c'.lower (!c.is_right_closed) (!c'.is_left_closed) ::
          compBetween (c' :: cs') := rfl
    rw [hstep, hpf.1]
    rw [List.cons_append, List.chain'_cons]
    constructor
    · exact sep_gap hgc hP1 hP2 rfl rfl
    · have ih := compBetween_chain cs' c' ⟨c.upper, c'.lower, !c.rc, !c'.lc⟩ T hgc'
        (fun i hi => hg i (List.mem_cons_of_mem c' hi)) (List.chain'_cons.mp hc).2
        rfl rfl ?_ hTc
      · exact ih
      · intro t ht
        have := hT t ht
        rw [List.getLastD_cons] at this
        exact this

/-- The complement preserves the separation invariant. -/
theorem compl_invAux (A : DIS) (h : InvAux A) : InvAux A.compl := by
  obtain ⟨hc, hg⟩ := h
  match hAl : A.l with
  | [] =>
    unfold compl
    rw [hAl]
    refine ⟨List.chain'_singleton _, ?_⟩
    intro i hi
    rcases List.mem_singleton.mp hi with h
    rw [h]
    exact ⟨Ival.make_valid _ _ _ _, by decide⟩
  | c :: cs =>
    rw [hAl] at hc hg
    have hgc : Good c := hg c (by simp)
    have hgcs : ∀ i ∈ cs, Good i := fun i hi => hg i (List.mem_cons_of_mem c hi)
    have hlast_mem : cs.getLastD c ∈ c :: cs := List.getLastD_mem_cons cs c
    have hglast : Good (cs.getLastD c) := hg _ hlast_mem
    have hcompl : A.compl.l =
        (if c.lower = EV.ninf then ([] : List Ival)
         else [Ival.make EV.ninf c.lower false (!c.is_left_closed)]) ++
        compBetween (c :: cs) ++
        (if (cs.getLastD c).upper = EV.pinf then ([] : List Ival)
         else [Ival.make (cs.getLastD c).upper EV.pinf
            (!(cs.getLastD c).is_right_closed) false]) := by
      unfold compl
      rw [hAl]
    set T : List Ival :=
      (if (cs.getLastD c).upper = EV.pinf then ([] : List Ival)
       else [Ival.make (cs.getLastD c).upper EV.pinf
          (!(cs.getLastD c).is_right_closed) false]) with hTdef
    have hThead : ∀ t ∈ T.head?, t.lower = (cs.getLastD c).upper ∧
        t.lc = !(cs.getLastD c).rc := by
      intro t ht
      rw [hTdef] at ht
      by_cases hguard : (cs.getLastD c).upper = EV.pinf
      · rw [if_pos hguard] at ht
        cases ht
      · rw [if_neg hguard] at ht
        simp only [List.head?_cons, Option.mem_def, Option.some.injEq] at ht
        have hmk : Ival.make (cs.getLastD c).upper EV.pinf
            (!(cs.getLastD c).is_right_closed) false =
            ⟨(cs.getLastD c).upper, EV.pinf, !(cs.getLastD c).rc, false⟩ := by
          rw [good_is_right_closed hglast]
          exact Ival.make_id (Or.inl (EV.blt_pinf_of_ne hguard))
        rw [hmk] at ht
        rw [← ht]
        exact ⟨rfl, rfl⟩
    have hTgood : ∀ t ∈ T, Good t := by
      intro t ht
      rw [hTdef] at ht
      by_cases hguard : (cs.getLastD c).upper = EV.pinf
      · rw [if_pos hguard] at ht
        cases ht
      · rw [if_neg hguard] at ht
        rcases List.mem_singleton.mp ht with h
        rw [h]
        exact ⟨Ival.make_valid _ _ _ _,
          Ival.make_isEmpty_false (Or.inl (EV.blt_pinf_of_ne hguard))⟩
    have hTchain : T.Chain' Sep := by
      rw [hTdef]
      by_cases hguard : (cs.getLastD c).upper = EV.pinf
      · rw [if_pos hguard]
        exact List.chain'_nil
      · rw [if_neg hguard]
        exact List.chain'_singleton _
    have hP0 : (Ival.mk EV.ninf c.lower false (!c.lc) ::
        (compBetween (c :: cs) ++ T)).Chain' Sep :=
      compBetween_chain cs c ⟨EV.ninf, c.lower, false, !c.lc⟩ T hgc hgcs hc
        rfl rfl hThead hTchain
    constructor
    · rw [hcompl]
      by_cases hguard : c.lower = EV.ninf
      · rw [if_pos hguard, List.nil_append]
        exact (List.chain'_cons'.mp hP0).2
      · rw [if_neg hguard]
        have hmk : Ival.make EV.ninf c.lower false (!c.is_left_closed) =
            ⟨EV.ninf, c.lower, false, !c.lc⟩ := by
          rw [good_is_left_closed hgc]
          exact Ival.make_id (Or.inl (EV.ninf_blt_of_ne hguard))
        rw [hmk]
        exact hP0
    · rw [hcompl]
      intro i hi
      rcases List.mem_append.mp hi with hi2 | hi2
      · rcases List.mem_append.mp hi2 with hi3 | hi3
        · by_cases hguard : c.lower = EV.ninf
          · rw [if_pos hguard] at hi3
            cases hi3
          · rw [if_neg hguard] at hi3
            rcases List.mem_singleton.mp hi3 with h
            rw [h]
            exact ⟨Ival.make_valid _ _ _ _, Ival.make_isEmpty_false
              (Or.inl (EV.ninf_blt_of_ne hguard))⟩
        · exact compBetween_good (c :: cs) hg hc i hi3
      · exact hTgood i hi2

end DIS

namespace DIS

theorem invAux_nil : InvAux ⟨[]⟩ :=
  ⟨List.chain'_nil, by simp⟩

theorem ofList_invAux (l : List Ival) (hv : ∀ i ∈ l, i.Valid) : InvAux (ofList l) := by
  unfold ofList
  have hg : ∀ i ∈ l.filter (fun i => !i.isEmpty), Good i := by
    intro i hi
    have hmem := List.mem_filter.mp hi
    refine ⟨hv i hmem.1, ?_⟩
    have := hmem.2
    cases hx : i.isEmpty
    · rfl
    · rw [hx] at this
      simp at this
  exact normalizeList_invAux _ hg

theorem unite_invAux (A B : DIS) (hA : InvAux A) (hB : InvAux B) :
    InvAux (A.unite B) := by
  unfold unite
  by_cases h1 : A.l = []
  · rw [if_pos h1]
    exact hB
  · rw [if_neg h1]
    by_cases h2 : B.l = []
    · rw [if_pos h2]
      exact hA
    · rw [if_neg h2]
      refine normalizeList_invAux _ ?_
      intro i hi
      rcases List.mem_append.mp hi with h | h
      · exact hA.2 i h
      · exact hB.2 i h

theorem inter_valid (a b : Ival) : (a.inter b).Valid := by
  unfold Ival.inter
  dsimp only
  repeat' split
  all_goals first
    | exact Ival.emptyI_valid
    | exact Ival.make_valid _ _ _ _

theorem interD_invAux (A B : DIS) : InvAux (A.interD B) := by
  unfold interD
  by_cases h1 : A.l = [] ∨ B.l = []
  · rw [if_pos h1]
    exact invAux_nil
  · rw [if_neg h1]
    refine normalizeList_invAux _ ?_
    intro i hi
    rcases List.mem_flatMap.mp hi with ⟨a, _, hfa⟩
    have hif := List.mem_filter.mp hfa
    rcases List.mem_map.mp hif.1 with ⟨b, _, hab⟩
    refine ⟨?_, ?_⟩
    · rw [← hab]
      exact inter_valid a b
    · have := hif.2
      cases hx : i.isEmpty
      · rfl
      · rw [hx] at this
        simp at this

theorem diff_invAux (A B : DIS) : InvAux (A.diff B) :=
  interD_invAux A B.compl

theorem symmDiff_invAux (A B : DIS) : InvAux (A.symmDiff B) :=
  diff_invAux (A.unite B) (A.interD B)

theorem insertI_invAux (A : DIS) (i : Ival) (hA : InvAux A) (hi : i.Valid) :
    InvAux (A.insertI i) := by
  unfold insertI
  by_cases h1 : i.isEmpty = true
  · rw [if_pos h1]
    exact hA
  · rw [if_neg h1]
    refine normalizeList_invAux _ ?_
    intro j hj
    rcases List.mem_append.mp hj with h | h
    · exact hA.2 j h
    · rcases List.mem_singleton.mp h with h2
      rw [h2]
      exact ⟨hi, by simpa using h1⟩

theorem foldl_insert_invAux (f : Ival → Ival) (hf : ∀ j, (f j).Valid) :
    ∀ (l : List Ival) (acc : DIS), InvAux acc →
      InvAux (l.foldl (fun acc j => acc.insertI (f j)) acc)
  | [], acc, hacc => hacc
  | x :: l, acc, hacc => by
    rw [List.foldl_cons]
    exact foldl_insert_invAux f hf l (acc.insertI (f x))
      (insertI_invAux acc (f x) hacc (hf x))

theorem mapD_invAux (A : DIS) (f : Ival → Ival) (hf : ∀ j, (f j).Valid) :
    InvAux (A.mapD f) :=
  foldl_insert_invAux f hf A.l ⟨[]⟩ invAux_nil

end DIS

/-- C1: every construction path and every set operation re-establishes the
normalize invariant — the component sequence is sorted strictly ascending
with no two components overlapping or adjacent — and normalize is idempotent
(a fixed point on every normalized collection). -/
theorem claim_C1_normalize_invariant (l : List Ival) (hl : ∀ i ∈ l, i.Valid)
    (A B : DIS) (hA : A.Inv) (hB : B.Inv) (i : Ival) (hi : i.Valid)
    (f : Ival → Ival) (hf : ∀ j, (f j).Valid) :
    (DIS.ofList l).Inv ∧ (A.unite B).Inv ∧ (A.interD B).Inv ∧ A.compl.Inv ∧
    (A.diff B).Inv ∧ (A.symmDiff B).Inv ∧ (A.insertI i).Inv ∧ (A.mapD f).Inv ∧
    normalizeList A.l = A.l ∧
    normalizeList (DIS.ofList l).l = (DIS.ofList l).l := by
  have hAx := (DIS.inv_iff_invAux A).mp hA
  have hBx := (DIS.inv_iff_invAux B).mp hB
  have hofl := DIS.ofList_invAux l hl
  refine ⟨(DIS.inv_iff_invAux _).mpr hofl,
    (DIS.inv_iff_invAux _).mpr (DIS.unite_invAux A B hAx hBx),
    (DIS.inv_iff_invAux _).mpr (DIS.interD_invAux A B),
    (DIS.inv_iff_invAux _).mpr (DIS.compl_invAux A hAx),
    (DIS.inv_iff_invAux _).mpr (DIS.diff_invAux A B),
    (DIS.inv_iff_invAux _).mpr (DIS.symmDiff_invAux A B),
    (DIS.inv_iff_invAux _).mpr (DIS.insertI_invAux A i hAx hi),
    (DIS.inv_iff_invAux _).mpr (DIS.mapD_invAux A f hf),
    DIS.normalizeList_fixed A.l hAx.2 hAx.1,
    DIS.normalizeList_fixed (DIS.ofList l).l hofl.2 hofl.1⟩

/-- Witness for C1 at concrete inputs (an unsorted, overlapping, duplicated
list with empties; two concrete normalized sets; a concrete insert argument
and map function). -/
theorem claim_C1_normalize_invariant_witness :
    ((DIS.ofList [Ival.closed (EV.fin 5) (EV.fin 15), Ival.opn (EV.fin 1) (EV.fin 1),
        Ival.closed (EV.fin 0) (EV.fin 10), Ival.closed (EV.fin 0) (EV.fin 10),
        Ival.closed (EV.fin 20) (EV.fin 30)]).Inv ∧
      ((DIS.mk [Ival.closed (EV.fin 0) (EV.fin 1)]).unite
        (DIS.mk [Ival.closed (EV.fin 5) (EV.fin 6)])).Inv ∧
      ((DIS.mk [Ival.closed (EV.fin 0) (EV.fin 1)]).interD
        (DIS.mk [Ival.closed (EV.fin 5) (EV.fin 6)])).Inv ∧
      (DIS.mk [Ival.closed (EV.fin 0) (EV.fin 1)]).compl.Inv ∧
      ((DIS.mk [Ival.closed (EV.fin 0) (EV.fin 1)]).diff
        (DIS.mk [Ival.closed (EV.fin 5) (EV.fin 6)])).Inv ∧
      ((DIS.mk [Ival.closed (EV.fin 0) (EV.fin 1)]).symmDiff
        (DIS.mk [Ival.closed (EV.fin 5) (EV.fin 6)])).Inv ∧
      ((DIS.mk [Ival.closed (EV.fin 0) (EV.fin 1)]).insertI
        (Ival.closed (EV.fin 1) (EV.fin 2))).Inv ∧
      ((DIS.mk [Ival.closed (EV.fin 0) (EV.fin 1)]).mapD
        (fun _ => Ival.closed (EV.fin 7) (EV.fin 9))).Inv ∧
      normalizeList (DIS.mk [Ival.closed (EV.fin 0) (EV.fin 1)]).l =
        (DIS.mk [Ival.closed (EV.fin 0) (EV.fin 1)]).l ∧
      normalizeList (DIS.ofList [Ival.closed (EV.fin 5) (EV.fin 15),
          Ival.opn (EV.fin 1) (EV.fin 1), Ival.closed (EV.fin 0) (EV.fin 10),
          Ival.closed (EV.fin 0) (EV.fin 10), Ival.closed (EV.fin 20) (EV.fin 30)]).l =
        (DIS.ofList [Ival.closed (EV.fin 5) (EV.fin 15), Ival.opn (EV.fin 1) (EV.fin 1),
          Ival.closed (EV.fin 0) (EV.fin 10), Ival.closed (EV.fin 0) (EV.fin 10),
          Ival.closed (EV.fin 20) (EV.fin 30)]).l) :=
  claim_C1_normalize_invariant
    [Ival.closed (EV.fin 5) (EV.fin 15), Ival.opn (EV.fin 1) (EV.fin 1),
      Ival.closed (EV.fin 0) (EV.fin 10), Ival.closed (EV.fin 0) (EV.fin 10),
      Ival.closed (EV.fin 20) (EV.fin 30)]
    (by decide)
    (DIS.mk [Ival.closed (EV.fin 0) (EV.fin 1)])
    (DIS.mk [Ival.closed (EV.fin 5) (EV.fin 6)])
    (by decide) (by decide)
    (Ival.closed (EV.fin 1) (EV.fin 2)) (by decide)
    (fun _ => Ival.closed (EV.fin 7) (EV.fin 9))
    (fun _ => Ival.make_valid _ _ _ _)

/-! ### Claim C3: binary-search membership -/

namespace DIS

/-- Correctness of the std::lower_bound loop on a range where the search
predicate is downward closed: the result is the first index in the range
where the predicate fails. -/
theorem lbLoop_spec (l : List Ival) (v : EV) :
    ∀ (fuel count first : Nat), count ≤ fuel →
    (∀ i j, first ≤ i → i ≤ j → j < first + count →
      lbPred v (l.getD j Ival.emptyI) = true → lbPred v (l.getD i Ival.emptyI) = true) →
    first ≤ lbLoop l v fuel first count ∧ lbLoop l v fuel first count ≤ first + count ∧
    (∀ k, first ≤ k → k < lbLoop l v fuel first count →
      lbPred v (l.getD k Ival.emptyI) = true) ∧
    (∀ k, lbLoop l v fuel first count ≤ k → k < first + count →
      lbPred v (l.getD k Ival.emptyI) = false)
  | 0, count, first, hfuel, _ => by
    have hc : count = 0 := Nat.le_zero.mp hfuel
    subst hc
    rw [lbLoop]
    exact ⟨Nat.le_refl _, Nat.le_add_right _ _,
      fun k h1 h2 => absurd h2 (by omega), fun k h1 h2 => absurd h2 (by omega)⟩
  | fuel + 1, count, first, hfuel, hmono => by
    rw [lbLoop]
    by_cases hc : count = 0
    · rw [if_pos hc]
      exact ⟨Nat.le_refl _, Nat.le_add_right _ _,
        fun k h1 h2 => absurd h2 (by omega), fun k h1 h2 => absurd h2 (by omega)⟩
    · rw [if_neg hc]
      have hcpos : 0 < count := Nat.pos_of_ne_zero hc
      have hstep : count / 2 < count := Nat.div_lt_self hcpos (by omega)
      by_cases hp : lbPred v (l.getD (first + count / 2) Ival.emptyI) = true
      · rw [if_pos hp]
        have hfuel2 : count - count / 2 - 1 ≤ fuel := by omega
        have hmono2 : ∀ i j, first + count / 2 + 1 ≤ i → i ≤ j →
            j < (first + count / 2 + 1) + (count - count / 2 - 1) →
            lbPred v (l.getD j Ival.emptyI) = true →
            lbPred v (l.getD i Ival.emptyI) = true := by
          intro i j h1 h2 h3 h4
          exact hmono i j (by omega) h2 (by omega) h4
        have ih := lbLoop_spec l v fuel (count - count / 2 - 1) (first + count / 2 + 1)
          hfuel2 hmono2
        obtain ⟨ih1, ih2, ih3, ih4⟩ := ih
        refine ⟨by omega, by omega, ?_, ?_⟩
        · intro k hk1 hk2
          by_cases hk3 : first + count / 2 + 1 ≤ k
          · exact ih3 k hk3 hk2
          · exact hmono k (first + count / 2) hk1 (by omega) (by omega) hp
        · intro k hk1 hk2
          exact ih4 k hk1 (by omega)
      · rw [if_neg hp]
        have hp2 : lbPred v (l.getD (first + count / 2) Ival.emptyI) = false := by
          simpa using hp
        have hfuel2 : count / 2 ≤ fuel := by omega
        have hmono2 : ∀ i j, first ≤ i → i ≤ j → j < first + count / 2 →
            lbPred v (l.getD j Ival.emptyI) = true →
            lbPred v (l.getD i Ival.emptyI) = true := by
          intro i j h1 h2 h3 h4
          exact hmono i j h1 h2 (by omega) h4
        have ih := lbLoop_spec l v fuel (count / 2) first hfuel2 hmono2
        obtain ⟨ih1, ih2, ih3, ih4⟩ := ih
        refine ⟨ih1, by omega, ih3, ?_⟩
        intro k hk1 hk2
        by_cases hk3 : k < first + count / 2
        · exact ih4 k hk1 hk3
        · cases hq : lbPred v (l.getD k Ival.emptyI)
          · rfl
          · exfalso
            have := hmono (first + count / 2) k (by omega) (by omega) (by omega) hq
            rw [hp2] at this
            cases this

end DIS

namespace DIS

/-- On a separated list the lower_bound comparator predicate is downward
closed along indices. -/
theorem pred_mono_of_inv (A : DIS) (hA : Inv A) (v : EV) :
    ∀ i j, 0 ≤ i → i ≤ j → j < 0 + A.l.length →
      lbPred v (A.l.getD j Ival.emptyI) = true →
      lbPred v (A.l.getD i Ival.emptyI) = true := by
  have hAx := (inv_iff_invAux A).mp hA
  have hps := chain_sep_pairwise A.l hAx.2 hAx.1
  intro i j _ hij hj hp
  have hjl : j < A.l.length := by omega
  have hil : i < A.l.length := by omega
  rw [List.getD_eq_getElem A.l Ival.emptyI hjl] at hp
  rw [List.getD_eq_getElem A.l Ival.emptyI hil]
  have hgj : Good (A.l[j]) := hAx.2 _ (List.getElem_mem hjl)
  have hgi : Good (A.l[i]) := hAx.2 _ (List.getElem_mem hil)
  unfold lbPred at hp ⊢
  rw [hgj.2] at hp
  rw [hgi.2]
  simp only [Bool.false_eq_true, if_false] at hp ⊢
  rcases Nat.lt_or_ge i j with hlt | hge
  · have hsep : Sep (A.l[i]) (A.l[j]) :=
      (List.pairwise_iff_getElem.mp hps) i j hil hjl hlt
    have hcross : EV.ble (A.l[i]).upper (A.l[j]).upper = true := by
      have h1 : EV.ble (A.l[i]).upper (A.l[j]).lower = true := by
        cases hsep with
        | inl h => exact EV.ble_of_blt h
        | inr h => exact EV.ble_of_eq h.1
      exact EV.ble_trans h1 (good_ble hgj)
    exact EV.blt_of_ble_of_blt hcross hp
  · have hij2 : i = j := by omega
    subst hij2
    exact hp

/-- C3: the binary-search membership query answers exactly componentwise
membership, and an empty collection answers false. -/
theorem claim_C3_contains (A : DIS) (hA : A.Inv) (v : EV) :
    (A.containsV v = true ↔ ∃ c ∈ A.l, c.contains v = true) ∧
    (A.l = [] → A.containsV v = false) := by
  have hAx := (inv_iff_invAux A).mp hA
  have hps := chain_sep_pairwise A.l hAx.2 hAx.1
  have hspec := lbLoop_spec A.l v A.l.length A.l.length 0 (Nat.le_refl _)
    (pred_mono_of_inv A hA v)
  obtain ⟨hs1, hs2, hs3, hs4⟩ := hspec
  set r := lbLoop A.l v A.l.length 0 A.l.length with hrdef
  constructor
  · constructor
    · intro h
      unfold containsV at h
      have h1 : r < A.l.length := by
        cases hx : decide (r < A.l.length)
        · rw [hx] at h
          simp at h
        · exact of_decide_eq_true hx
      have h2 : (A.l.getD r Ival.emptyI).contains v = true := by
        rw [decide_eq_true h1] at h
        simpa using h
      refine ⟨A.l.getD r Ival.emptyI, ?_, h2⟩
      rw [List.getD_eq_getElem A.l Ival.emptyI h1]
      exact List.getElem_mem h1
    · intro h
      obtain ⟨c, hmem, hcv⟩ := h
      obtain ⟨k, hk, hck⟩ := List.mem_iff_getElem.mp hmem
      have hgk : Good c := hAx.2 c hmem
      have hnotpk : lbPred v (A.l.getD k Ival.emptyI) = false := by
        rw [List.getD_eq_getElem A.l Ival.emptyI hk, hck]
        unfold lbPred
        rw [hgk.2]
        unfold Ival.contains at hcv
        rw [hgk.2] at hcv
        simp only [Bool.false_eq_true, if_false, Bool.and_eq_true] at hcv
        have hvu : EV.ble v c.upper = true := by
          cases hrc : c.rc
          · rw [hrc] at hcv
            simp only [Bool.false_eq_true, if_false] at hcv
            exact EV.ble_of_blt hcv.2
          · rw [hrc] at hcv
            simpa using hcv.2
        rw [EV.not_blt_iff_ble]
        exact hvu
      have hrk : r ≤ k := by
        by_contra hcon
        have := hs3 k (Nat.zero_le k) (by omega)
        rw [hnotpk] at this
        cases this
      have hrl : r < A.l.length := by omega
      have hnotpr : lbPred v (A.l.getD r Ival.emptyI) = false :=
        hs4 r (Nat.le_refl r) (by omega)
      unfold containsV
      rw [decide_eq_true hrl]
      simp only [Bool.true_and]
      by_cases hreq : r = k
      · rw [← hrdef, hreq, List.getD_eq_getElem A.l Ival.emptyI hk, hck]
        exact hcv
      · exfalso
        have hrlt : r < k := by omega
        have hgr : Good (A.l[r]) := hAx.2 _ (List.getElem_mem hrl)
        have hsep : Sep (A.l[r]) (A.l[k]) :=
          (List.pairwise_iff_getElem.mp hps) r k hrl hk hrlt
        rw [List.getD_eq_getElem A.l Ival.emptyI hrl] at hnotpr
        unfold lbPred at hnotpr
        rw [hgr.2] at hnotpr
        have hvur : EV.ble v (A.l[r]).upper = true := EV.not_blt_iff_ble.mp hnotpr
        unfold Ival.contains at hcv
        rw [hgk.2] at hcv
        simp only [Bool.false_eq_true, if_false, Bool.and_eq_true] at hcv
        have hlv : EV.ble c.lower v = true := by
          cases hlc : c.lc
          · rw [hlc] at hcv
            simp only [Bool.false_eq_true, if_false] at hcv
            exact EV.ble_of_blt hcv.1
          · rw [hlc] at hcv
            simpa using hcv.1
        cases hsep with
        | inl h =>
          rw [hck] at h
          have h1 : EV.blt v v = true :=
            EV.blt_of_ble_of_blt hvur (EV.blt_of_blt_of_ble h hlv)
          rw [EV.blt_irrefl] at h1
          cases h1
        | inr h =>
          obtain ⟨heq, hrc, hlcC⟩ := h
          rw [hck] at heq hlcC
          have hveq : v = c.lower := by
            refine EV.ble_antisymm ?_ hlv
            rw [← heq]
            exact hvur
          rw [hlcC] at hcv
          simp only [Bool.false_eq_true, if_false] at hcv
          have := hcv.1
          rw [← hveq] at this
          rw [EV.blt_irrefl] at this
          cases this
  · intro h
    unfold containsV
    rw [h]
    rfl

end DIS

/-- C3 restated at top level with the claim id: see DIS.claim-machinery. -/
theorem claim_C3_contains_witness :
    ((DIS.mk [Ival.closed (EV.fin 0) (EV.fin 1),
        Ival.closed (EV.fin 3) (EV.fin 4)]).containsV (EV.fin 3) = true ↔
      ∃ c ∈ (DIS.mk [Ival.closed (EV.fin 0) (EV.fin 1),
        Ival.closed (EV.fin 3) (EV.fin 4)]).l, c.contains (EV.fin 3) = true) ∧
    ((DIS.mk [Ival.closed (EV.fin 0) (EV.fin 1),
        Ival.closed (EV.fin 3) (EV.fin 4)]).l = [] →
      (DIS.mk [Ival.closed (EV.fin 0) (EV.fin 1),
        Ival.closed (EV.fin 3) (EV.fin 4)]).containsV (EV.fin 3) = false) :=
  DIS.claim_C3_contains
    (DIS.mk [Ival.closed (EV.fin 0) (EV.fin 1), Ival.closed (EV.fin 3) (EV.fin 4)])
    (by decide) (EV.fin 3)

/-! ### Claim C2: complement (corrected) -/

/-- The spec requirement for the amended double-complement law: components
that reach an infinity sentinel are open there (the factories only ever
build such intervals, per interval.hpp's unbounded constructors). -/
def Ival.openAtInf (i : Ival) : Prop :=
  (i.lower = EV.ninf → i.lc = false) ∧ (i.upper = EV.pinf → i.rc = false)

instance : DecidablePred Ival.openAtInf := fun i => by
  unfold Ival.openAtInf
  infer_instance

namespace DIS

theorem eqb_refl (a : Ival) : a.eqb a = true := by
  unfold Ival.eqb
  by_cases h : (a.isEmpty && a.isEmpty) = true <;> simp [h]

theorem eqD_refl (A : DIS) : eqD A A = true := by
  unfold eqD
  induction A.l with
  | nil => rfl
  | cons x xs ih =>
    unfold eqD.go
    rw [eqb_refl, ih]
    rfl

theorem getLastD_append_single (l : List Ival) (b d : Ival) :
    (l ++ [b]).getLastD d = b := by
  induction l generalizing d with
  | nil => rfl
  | cons x xs ih =>
    rw [List.cons_append, List.getLastD_cons]
    exact ih x

theorem dropLast_concat_getLastD : ∀ (cs : List Ival) (c : Ival),
    (c :: cs).dropLast ++ [cs.getLastD c] = c :: cs
  | [], c => rfl
  | c' :: cs', c => by
    rw [List.dropLast_cons₂, List.getLastD_cons, List.cons_append]
    rw [dropLast_concat_getLastD cs' c']

/-- A good interval rebuilt from its own fields by the constructor. -/
theorem good_make_self {c : Ival} (hc : Good c) :
    Ival.make c.lower c.upper c.lc c.rc = c := by
  have hcond : EV.blt c.lower c.upper = true ∨
      (c.lower = c.upper ∧ c.lc = true ∧ c.rc = true) := by
    cases EV.blt_or_eq_of_ble (good_ble hc) with
    | inl h => exact Or.inl h
    | inr h => exact Or.inr ⟨h, good_point hc h⟩
  rw [Ival.make_id hcond]

/-- The inner sweep of the double complement rebuilds the component list
when the outer pieces are present on both sides. -/
theorem compBetween_reconstruct : ∀ (cs : List Ival) (c P q : Ival),
    Good c → (∀ i ∈ cs, Good i) → (c :: cs).Chain' Sep →
    Good P → Good q →
    P.upper = c.lower → P.rc = !c.lc →
    q.lower = (cs.getLastD c).upper → q.lc = !(cs.getLastD c).rc →
    compBetween (P :: (compBetween (c :: cs) ++ [q])) = c :: cs
  | [], c, P, q, hgc, _, _, hgP, hgq, hP1, hP2, hq1, hq2 => by
    show Ival.make P.upper q.lower (!P.is_right_closed) (!q.is_left_closed) ::
      compBetween [q] = [c]
    rw [good_is_right_closed hgP, good_is_left_closed hgq, hP1, hP2, hq1, hq2]
    rw [List.getLastD_nil] at *
    rw [Bool.not_not, Bool.not_not]
    rw [good_make_self hgc]
    rfl
  | c' :: cs', c, P, q, hgc, hg, hc, hgP, hgq, hP1, hP2, hq1, hq2 => by
    have hgc' : Good c' := hg c' (by simp)
    have hsep : Sep c c' := (List.chain'_cons.mp hc).1
    have hpf := piece_fields hgc hgc' hsep
    have hstep : compBetween (c :: c' :: cs') =
        Ival.make c.upper c'.lower (!c.is_right_closed) (!c'.is_left_closed) ::
          compBetween (c' :: cs') := rfl
    rw [hstep, hpf.1, List.cons_append]
    show Ival.make P.upper (Ival.mk c.upper c'.lower (!c.rc) (!c'.lc)).lower
        (!P.is_right_closed) (!(Ival.mk c.upper c'.lower (!c.rc) (!c'.lc)).is_left_closed) ::
      compBetween (Ival.mk c.upper c'.lower (!c.rc) (!c'.lc) ::
        (compBetween (c' :: cs') ++ [q])) = c :: c' :: cs'
    have hgpc : Good (Ival.mk c.upper c'.lower (!c.rc) (!c'.lc)) := by
      rw [← hpf.1]
      exact hpf.2
    rw [good_is_right_closed hgP, good_is_left_closed hgpc, hP1, hP2]
    have hfirst : Ival.make c.lower c.upper (!(!c.lc)) (!(!c.rc)) = c := by
      rw [Bool.not_not, Bool.not_not]
      exact good_make_self hgc
    rw [hfirst]
    have hrest := compBetween_reconstruct cs' c' (Ival.mk c.upper c'.lower (!c.rc) (!c'.lc)) q
      hgc' (fun i hi => hg i (List.mem_cons_of_mem c' hi)) (List.chain'_cons.mp hc).2
      hgpc hgq rfl rfl (by rw [← List.getLastD_cons c c' cs']; exact hq1)
      (by rw [← List.getLastD_cons c c' cs']; exact hq2)
    rw [hrest]

/-- The inner sweep of the double complement when the right end of the
domain is covered: it rebuilds all but the last component. -/
theorem compBetween_reconstruct_noq : ∀ (cs : List Ival) (c P : Ival),
    Good c → (∀ i ∈ cs, Good i) → (c :: cs).Chain' Sep → Good P →
    P.upper = c.lower → P.rc = !c.lc →
    compBetween (P :: compBetween (c :: cs)) = (c :: cs).dropLast
  | [], c, P, _, _, _, _, _, _ => rfl
  | c' :: cs', c, P, hgc, hg, hc, hgP, hP1, hP2 => by
    have hgc' : Good c' := hg c' (by simp)
    have hsep : Sep c c' := (List.chain'_cons.mp hc).1
    have hpf := piece_fields hgc hgc' hsep
    have hstep : compBetween (c :: c' :: cs') =
        Ival.make c.upper c'.lower (!c.is_right_closed) (!c'.is_left_closed) ::
          compBetween (c' :: cs') := rfl
    rw [hstep, hpf.1]
    show Ival.make P.upper (Ival.mk c.upper c'.lower (!c.rc) (!c'.lc)).lower
        (!P.is_right_closed) (!(Ival.mk c.upper c'.lower (!c.rc) (!c'.lc)).is_left_closed) ::
      compBetween (Ival.mk c.upper c'.lower (!c.rc) (!c'.lc) :: compBetween (c' :: cs')) =
      (c :: c' :: cs').dropLast
    have hgpc : Good (Ival.mk c.upper c'.lower (!c.rc) (!c'.lc)) := by
      rw [← hpf.1]
      exact hpf.2
    rw [good_is_right_closed hgP, good_is_left_closed hgpc, hP1, hP2]
    have hfirst : Ival.make c.lower c.upper (!(!c.lc)) (!(!c.rc)) = c := by
      rw [Bool.not_not, Bool.not_not]
      exact good_make_self hgc
    rw [hfirst]
    rw [compBetween_reconstruct_noq cs' c' (Ival.mk c.upper c'.lower (!c.rc) (!c'.lc))
      hgc' (fun i hi => hg i (List.mem_cons_of_mem c' hi)) (List.chain'_cons.mp hc).2
      hgpc rfl rfl]
    rw [List.dropLast_cons₂]

/-- The fields of the last inter-component piece of the complement. -/
theorem compBetween_last : ∀ (cs' : List Ival) (c' c d : Ival),
    Good c → Good c' → (∀ i ∈ cs', Good i) → (c :: c' :: cs').Chain' Sep →
    ((compBetween (c :: c' :: cs')).getLastD d).upper = (cs'.getLastD c').lower ∧
    ((compBetween (c :: c' :: cs')).getLastD d).rc = !(cs'.getLastD c').lc ∧
    (compBetween (c :: c' :: cs')).getLastD d ∈ compBetween (c :: c' :: cs')
  | [], c', c, d, hgc, hgc', _, hc => by
    have hpf := piece_fields hgc hgc' (List.chain'_cons.mp hc).1
    have hstep : compBetween [c, c'] =
        [Ival.make c.upper c'.lower (!c.is_right_closed) (!c'.is_left_closed)] := rfl
    rw [hstep, hpf.1]
    exact ⟨rfl, rfl, by simp⟩
  | c'' :: cs'', c', c, d, hgc, hgc', hg, hc => by
    have hstep : compBetween (c :: c' :: c'' :: cs'') =
        Ival.make c.upper c'.lower (!c.is_right_closed) (!c'.is_left_closed) ::
          compBetween (c' :: c'' :: cs'') := rfl
    rw [hstep, List.getLastD_cons, List.getLastD_cons]
    have ih := compBetween_last cs'' c'' c'
      (Ival.make c.upper c'.lower (!c.is_right_closed) (!c'.is_left_closed))
      hgc' (hg c'' (by simp)) (fun i hi => hg i (List.mem_cons_of_mem c'' hi))
      (List.chain'_cons.mp hc).2
    exact ⟨ih.1, ih.2.1, List.mem_cons_of_mem _ ih.2.2⟩

end DIS

namespace DIS

theorem upper_ne_ninf {c : Ival} (hg : Good c) (ho : c.openAtInf)
    (h1 : c.lower = EV.ninf) : c.upper ≠ EV.ninf := by
  intro hcon
  have heq : c.lower = c.upper := by rw [h1, hcon]
  have := (good_point hg heq).1
  rw [ho.1 h1] at this
  cases this

theorem lower_ne_pinf {c : Ival} (hg : Good c) (ho : c.openAtInf)
    (h2 : c.upper = EV.pinf) : c.lower ≠ EV.pinf := by
  intro hcon
  have heq : c.lower = c.upper := by rw [h2, hcon]
  have := (good_point hg heq).2
  rw [ho.2 h2] at this
  cases this

/-- Rebuilding a left-unbounded open component from the head piece of the
second complement. -/
theorem rebuild_left {c : Ival} (h1 : c.lower = EV.ninf) (hlc : c.lc = false)
    (hne : c.upper ≠ EV.ninf) : Ival.make EV.ninf c.upper false c.rc = c := by
  rw [Ival.make_id (Or.inl (EV.ninf_blt_of_ne hne))]
  obtain ⟨cl, cu, clc, crc⟩ := c
  simp_all

/-- Rebuilding a right-unbounded open component from the tail piece of the
second complement. -/
theorem rebuild_right {c : Ival} (h2 : c.upper = EV.pinf) (hrc : c.rc = false)
    (hne : c.lower ≠ EV.pinf) : Ival.make c.lower EV.pinf c.lc false = c := by
  rw [Ival.make_id (Or.inl (EV.blt_pinf_of_ne hne))]
  obtain ⟨cl, cu, clc, crc⟩ := c
  simp_all

/-- The complement, written out on a non-empty component list. -/
theorem compl_eq (B : DIS) (c : Ival) (cs : List Ival) (h : B.l = c :: cs) :
    B.compl = ⟨(if c.lower = EV.ninf then []
        else [Ival.make EV.ninf c.lower false (!c.is_left_closed)]) ++
      compBetween (c :: cs) ++
      (if (cs.getLastD c).upper = EV.pinf then []
        else [Ival.make (cs.getLastD c).upper EV.pinf
          (!(cs.getLastD c).is_right_closed) false])⟩ := by
  unfold compl
  rw [h]

end DIS

namespace DIS

/-- The double complement rebuilds the component list, provided every
component is open at any infinite endpoint. -/
theorem compl_compl : ∀ (A : DIS), InvAux A → (∀ c ∈ A.l, Ival.openAtInf c) →
    A.compl.compl = A
  | ⟨Al⟩, hAx, hopen => by
    obtain ⟨hch, hgd⟩ := hAx
    rcases Al with _ | ⟨c, cs⟩
    · decide
    · have hgc : Good c := hgd c (by simp)
      have hgcs : ∀ i ∈ cs, Good i := fun i hi => hgd i (List.mem_cons_of_mem c hi)
      have hchcs : (c :: cs).Chain' Sep := hch
      have hoc : c.openAtInf := hopen c (by simp)
      by_cases h1 : c.lower = EV.ninf
      · have hlc : c.lc = false := hoc.1 h1
        have hneu : c.upper ≠ EV.ninf := upper_ne_ninf hgc hoc h1
        by_cases h2 : (cs.getLastD c).upper = EV.pinf
        · -- case 4: both ends of the domain are covered
          rcases cs with _ | ⟨c', cs'⟩
          · -- single, fully unbounded component
            rw [List.getLastD_nil] at h2
            have hrc : c.rc = false := hoc.2 h2
            have hcval : c = ⟨EV.ninf, EV.pinf, false, false⟩ := by
              obtain ⟨cl, cu, clc, crc⟩ := c
              simp_all
            rw [hcval]
            decide
          · rw [List.getLastD_cons] at h2
            have hgc' : Good c' := hgcs c' (by simp)
            have hsepcc' : Sep c c' := (List.chain'_cons.mp hchcs).1
            have hpf := piece_fields hgc hgc' hsepcc'
            have hgpc : Good (⟨c.upper, c'.lower, !c.rc, !c'.lc⟩ : Ival) := by
              rw [← hpf.1]
              exact hpf.2
            have hglast : Good (cs'.getLastD c') := by
              refine hgd _ (List.mem_cons_of_mem c ?_)
              exact List.getLastD_mem_cons cs' c'
            have holast : (cs'.getLastD c').openAtInf := by
              refine hopen _ (List.mem_cons_of_mem c ?_)
              exact List.getLastD_mem_cons cs' c'
            have hrlast : (cs'.getLastD c').rc = false := holast.2 h2
            have hnel : (cs'.getLastD c').lower ≠ EV.pinf :=
              lower_ne_pinf hglast holast h2
            have hc1 : (DIS.mk (c :: c' :: cs')).compl =
                ⟨(⟨c.upper, c'.lower, !c.rc, !c'.lc⟩ : Ival) :: compBetween (c' :: cs')⟩ := by
              rw [compl_eq (DIS.mk (c :: c' :: cs')) c (c' :: cs') rfl]
              rw [List.getLastD_cons]
              rw [if_pos h1, if_pos h2]
              rw [show compBetween (c :: c' :: cs') =
                Ival.make c.upper c'.lower (!c.is_right_closed) (!c'.is_left_closed) ::
                  compBetween (c' :: cs') from rfl, hpf.1]
              simp
            rw [hc1]
            rw [compl_eq (DIS.mk ((⟨c.upper, c'.lower, !c.rc, !c'.lc⟩ : Ival) ::
              compBetween (c' :: cs'))) (⟨c.upper, c'.lower, !c.rc, !c'.lc⟩ : Ival)
              (compBetween (c' :: cs')) rfl]
            rw [if_neg (show ¬(⟨c.upper, c'.lower, !c.rc, !c'.lc⟩ : Ival).lower = EV.ninf
              from hneu)]
            have hhead : Ival.make EV.ninf
                (⟨c.upper, c'.lower, !c.rc, !c'.lc⟩ : Ival).lower false
                (!(⟨c.upper, c'.lower, !c.rc, !c'.lc⟩ : Ival).is_left_closed) = c := by
              rw [good_is_left_closed hgpc]
              show Ival.make EV.ninf c.upper false (!(!c.rc)) = c
              rw [Bool.not_not]
              exact rebuild_left h1 hlc hneu
            rw [hhead]
            rcases cs' with _ | ⟨c'', cs''⟩
            · -- exactly two components
              rw [List.getLastD_nil] at h2 hrlast hnel
              rw [show compBetween ((⟨c.upper, c'.lower, !c.rc, !c'.lc⟩ : Ival) :: compBetween [c']) =
                [] from rfl]
              rw [show (compBetween [c']).getLastD (⟨c.upper, c'.lower, !c.rc, !c'.lc⟩ : Ival) =
                (⟨c.upper, c'.lower, !c.rc, !c'.lc⟩ : Ival) from rfl]
              rw [if_neg (show ¬(⟨c.upper, c'.lower, !c.rc, !c'.lc⟩ : Ival).upper = EV.pinf
                from hnel)]
              have htail : Ival.make (⟨c.upper, c'.lower, !c.rc, !c'.lc⟩ : Ival).upper EV.pinf
                  (!(⟨c.upper, c'.lower, !c.rc, !c'.lc⟩ : Ival).is_right_closed) false = c' := by
                rw [good_is_right_closed hgpc]
                show Ival.make c'.lower EV.pinf (!(!c'.lc)) false = c'
                rw [Bool.not_not]
                exact rebuild_right h2 hrlast hnel
              rw [htail]
              simp
            · -- three or more components
              rw [List.getLastD_cons] at h2 hrlast hnel
              have hgc'' : Good c'' := hgcs c'' (by simp)
              have hlf := compBetween_last cs'' c'' c'
                (⟨c.upper, c'.lower, !c.rc, !c'.lc⟩ : Ival) hgc' hgc''
                (fun i hi => hgcs i (List.mem_cons_of_mem c' (List.mem_cons_of_mem c'' hi)))
                (List.chain'_cons.mp hchcs).2
              have hglp : Good ((compBetween (c' :: c'' :: cs'')).getLastD
                  (⟨c.upper, c'.lower, !c.rc, !c'.lc⟩ : Ival)) := by
                refine compBetween_good (c' :: c'' :: cs'')
                  (fun i hi => hgcs i hi) (List.chain'_cons.mp hchcs).2 _ hlf.2.2
              rw [compBetween_reconstruct_noq (c'' :: cs'') c'
                (⟨c.upper, c'.lower, !c.rc, !c'.lc⟩ : Ival) hgc'
                (fun i hi => hgcs i (List.mem_cons_of_mem c' hi))
                (List.chain'_cons.mp hchcs).2 hgpc rfl rfl]
              rw [if_neg (show ¬((compBetween (c' :: c'' :: cs'')).getLastD
                  (⟨c.upper, c'.lower, !c.rc, !c'.lc⟩ : Ival)).upper = EV.pinf by
                rw [hlf.1]
                exact hnel)]
              have htail : Ival.make ((compBetween (c' :: c'' :: cs'')).getLastD
                    (⟨c.upper, c'.lower, !c.rc, !c'.lc⟩ : Ival)).upper EV.pinf
                  (!((compBetween (c' :: c'' :: cs'')).getLastD
                    (⟨c.upper, c'.lower, !c.rc, !c'.lc⟩ : Ival)).is_right_closed) false =
                  cs''.getLastD c'' := by
                rw [good_is_right_closed hglp, hlf.1, hlf.2.1, Bool.not_not]
                exact rebuild_right h2 hrlast hnel
              rw [htail]
              have hdrop := dropLast_concat_getLastD (c'' :: cs'') c'
              rw [List.getLastD_cons] at hdrop
              rw [show ([c] : List Ival) ++ (c' :: c'' :: cs'').dropLast ++ [cs''.getLastD c''] =
                c :: ((c' :: c'' :: cs'').dropLast ++ [cs''.getLastD c'']) from by simp]
              rw [hdrop]
        · -- case 2: left end covered, right end free
          rcases cs with _ | ⟨c', cs'⟩
          · rw [List.getLastD_nil] at h2
            have ht0 : Ival.make c.upper EV.pinf (!c.is_right_closed) false =
                ⟨c.upper, EV.pinf, !c.rc, false⟩ := by
              rw [good_is_right_closed hgc]
              exact Ival.make_id (Or.inl (EV.blt_pinf_of_ne h2))
            have hc1 : (DIS.mk [c]).compl = ⟨[⟨c.upper, EV.pinf, !c.rc, false⟩]⟩ := by
              rw [compl_eq (DIS.mk [c]) c [] rfl]
              rw [List.getLastD_nil, if_pos h1, if_neg h2, ht0]
              rfl
            rw [hc1]
            rw [compl_eq (DIS.mk [(⟨c.upper, EV.pinf, !c.rc, false⟩ : Ival)])
              (⟨c.upper, EV.pinf, !c.rc, false⟩ : Ival) [] rfl]
            rw [List.getLastD_nil]
            rw [if_neg (show ¬(⟨c.upper, EV.pinf, !c.rc, false⟩ : Ival).lower = EV.ninf
              from hneu)]
            rw [if_pos (show (⟨c.upper, EV.pinf, !c.rc, false⟩ : Ival).upper = EV.pinf
              from rfl)]
            have hgt0 : Good (⟨c.upper, EV.pinf, !c.rc, false⟩ : Ival) := by
              rw [← ht0]
              exact ⟨Ival.make_valid _ _ _ _,
                Ival.make_isEmpty_false (Or.inl (EV.blt_pinf_of_ne h2))⟩
            have hhead : Ival.make EV.ninf (⟨c.upper, EV.pinf, !c.rc, false⟩ : Ival).lower false
                (!(⟨c.upper, EV.pinf, !c.rc, false⟩ : Ival).is_left_closed) = c := by
              rw [good_is_left_closed hgt0]
              show Ival.make EV.ninf c.upper false (!(!c.rc)) = c
              rw [Bool.not_not]
              exact rebuild_left h1 hlc hneu
            rw [hhead]
            rw [show compBetween [(⟨c.upper, EV.pinf, !c.rc, false⟩ : Ival)] =
              ([] : List Ival) from rfl]
            simp
          · rw [List.getLastD_cons] at h2
            have hgc' : Good c' := hgcs c' (by simp)
            have hsepcc' : Sep c c' := (List.chain'_cons.mp hchcs).1
            have hpf := piece_fields hgc hgc' hsepcc'
            have hgpc : Good (⟨c.upper, c'.lower, !c.rc, !c'.lc⟩ : Ival) := by
              rw [← hpf.1]
              exact hpf.2
            have hglast : Good (cs'.getLastD c') := by
              refine hgd _ (List.mem_cons_of_mem c ?_)
              exact List.getLastD_mem_cons cs' c'
            have ht0 : Ival.make (cs'.getLastD c').upper EV.pinf
                (!(cs'.getLastD c').is_right_closed) false =
                ⟨(cs'.getLastD c').upper, EV.pinf, !(cs'.getLastD c').rc, false⟩ := by
              rw [good_is_right_closed hglast]
              exact Ival.make_id (Or.inl (EV.blt_pinf_of_ne h2))
            have hgt0 : Good (⟨(cs'.getLastD c').upper, EV.pinf,
                !(cs'.getLastD c').rc, false⟩ : Ival) := by
              rw [← ht0]
              exact ⟨Ival.make_valid _ _ _ _,
                Ival.make_isEmpty_false (Or.inl (EV.blt_pinf_of_ne h2))⟩
            have hc1 : (DIS.mk (c :: c' :: cs')).compl =
                ⟨(⟨c.upper, c'.lower, !c.rc, !c'.lc⟩ : Ival) ::
                  (compBetween (c' :: cs') ++
                    [⟨(cs'.getLastD c').upper, EV.pinf, !(cs'.getLastD c').rc, false⟩])⟩ := by
              rw [compl_eq (DIS.mk (c :: c' :: cs')) c (c' :: cs') rfl]
              rw [List.getLastD_cons]
              rw [if_pos h1, if_neg h2, ht0]
              rw [show compBetween (c :: c' :: cs') =
                Ival.make c.upper c'.lower (!c.is_right_closed) (!c'.is_left_closed) ::
                  compBetween (c' :: cs') from rfl, hpf.1]
              rfl
            rw [hc1]
            have hc2 := compl_eq (DIS.mk ((⟨c.upper, c'.lower, !c.rc, !c'.lc⟩ : Ival) ::
              (compBetween (c' :: cs') ++
                [(⟨(cs'.getLastD c').upper, EV.pinf, !(cs'.getLastD c').rc, false⟩ : Ival)])))
              (⟨c.upper, c'.lower, !c.rc, !c'.lc⟩ : Ival)
              (compBetween (c' :: cs') ++
                [(⟨(cs'.getLastD c').upper, EV.pinf, !(cs'.getLastD c').rc, false⟩ : Ival)]) rfl
            rw [hc2]
            rw [getLastD_append_single]
            rw [if_neg (show ¬(⟨c.upper, c'.lower, !c.rc, !c'.lc⟩ : Ival).lower = EV.ninf
              from hneu)]
            rw [if_pos (show (⟨(cs'.getLastD c').upper, EV.pinf,
              !(cs'.getLastD c').rc, false⟩ : Ival).upper = EV.pinf from rfl)]
            have hhead : Ival.make EV.ninf
                (⟨c.upper, c'.lower, !c.rc, !c'.lc⟩ : Ival).lower false
                (!(⟨c.upper, c'.lower, !c.rc, !c'.lc⟩ : Ival).is_left_closed) = c := by
              rw [good_is_left_closed hgpc]
              show Ival.make EV.ninf c.upper false (!(!c.rc)) = c
              rw [Bool.not_not]
              exact rebuild_left h1 hlc hneu
            rw [hhead]
            rw [compBetween_reconstruct cs' c'
              (⟨c.upper, c'.lower, !c.rc, !c'.lc⟩ : Ival)
              (⟨(cs'.getLastD c').upper, EV.pinf, !(cs'.getLastD c').rc, false⟩ : Ival)
              hgc' (fun i hi => hgcs i (List.mem_cons_of_mem c' hi))
              (List.chain'_cons.mp hchcs).2 hgpc hgt0 rfl rfl rfl rfl]
            simp
      · -- c.lower ≠ ninf
        have hh0 : Ival.make EV.ninf c.lower false (!c.is_left_closed) =
            ⟨EV.ninf, c.lower, false, !c.lc⟩ := by
          rw [good_is_left_closed hgc]
          exact Ival.make_id (Or.inl (EV.ninf_blt_of_ne h1))
        have hgh0 : Good (⟨EV.ninf, c.lower, false, !c.lc⟩ : Ival) := by
          rw [← hh0]
          exact ⟨Ival.make_valid _ _ _ _,
            Ival.make_isEmpty_false (Or.inl (EV.ninf_blt_of_ne h1))⟩
        by_cases h2 : (cs.getLastD c).upper = EV.pinf
        · -- case 3: right end covered, left end free
          have hglast : Good (cs.getLastD c) := hgd _ (List.getLastD_mem_cons cs c)
          have holast : (cs.getLastD c).openAtInf := hopen _ (List.getLastD_mem_cons cs c)
          have hrlast : (cs.getLastD c).rc = false := holast.2 h2
          have hnel : (cs.getLastD c).lower ≠ EV.pinf := lower_ne_pinf hglast holast h2
          rcases cs with _ | ⟨c', cs'⟩
          · rw [List.getLastD_nil] at h2 hrlast hnel
            have hc1 : (DIS.mk [c]).compl = ⟨[⟨EV.ninf, c.lower, false, !c.lc⟩]⟩ := by
              rw [compl_eq (DIS.mk [c]) c [] rfl]
              rw [List.getLastD_nil, if_neg h1, if_pos h2, hh0]
              rfl
            rw [hc1]
            rw [compl_eq (DIS.mk [(⟨EV.ninf, c.lower, false, !c.lc⟩ : Ival)])
              (⟨EV.ninf, c.lower, false, !c.lc⟩ : Ival) [] rfl]
            rw [List.getLastD_nil]
            rw [if_pos (show (⟨EV.ninf, c.lower, false, !c.lc⟩ : Ival).lower = EV.ninf
              from rfl)]
            rw [if_neg (show ¬(⟨EV.ninf, c.lower, false, !c.lc⟩ : Ival).upper = EV.pinf
              from hnel)]
            have htail : Ival.make (⟨EV.ninf, c.lower, false, !c.lc⟩ : Ival).upper EV.pinf
                (!(⟨EV.ninf, c.lower, false, !c.lc⟩ : Ival).is_right_closed) false = c := by
              rw [good_is_right_closed hgh0]
              show Ival.make c.lower EV.pinf (!(!c.lc)) false = c
              rw [Bool.not_not]
              exact rebuild_right h2 hrlast hnel
            rw [htail]
            rw [show compBetween [(⟨EV.ninf, c.lower, false, !c.lc⟩ : Ival)] =
              ([] : List Ival) from rfl]
            simp
          · rw [List.getLastD_cons] at h2 hrlast hnel
            have hgc' : Good c' := hgcs c' (by simp)
            have hsepcc' : Sep c c' := (List.chain'_cons.mp hchcs).1
            have hpf := piece_fields hgc hgc' hsepcc'
            have hgpc : Good (⟨c.upper, c'.lower, !c.rc, !c'.lc⟩ : Ival) := by
              rw [← hpf.1]
              exact hpf.2
            have hc1 : (DIS.mk (c :: c' :: cs')).compl =
                ⟨(⟨EV.ninf, c.lower, false, !c.lc⟩ : Ival) ::
                  compBetween (c :: c' :: cs')⟩ := by
              rw [compl_eq (DIS.mk (c :: c' :: cs')) c (c' :: cs') rfl]
              rw [List.getLastD_cons]
              rw [if_neg h1, if_pos h2, hh0]
              simp
            rw [hc1]
            rw [compl_eq (DIS.mk ((⟨EV.ninf, c.lower, false, !c.lc⟩ : Ival) ::
              compBetween (c :: c' :: cs'))) (⟨EV.ninf, c.lower, false, !c.lc⟩ : Ival)
              (compBetween (c :: c' :: cs')) rfl]
            rw [if_pos (show (⟨EV.ninf, c.lower, false, !c.lc⟩ : Ival).lower = EV.ninf
              from rfl)]
            have hlf := compBetween_last cs' c' c
              (⟨EV.ninf, c.lower, false, !c.lc⟩ : Ival) hgc hgc'
              (fun i hi => hgcs i (List.mem_cons_of_mem c' hi)) hchcs
            have hglp : Good ((compBetween (c :: c' :: cs')).getLastD
                (⟨EV.ninf, c.lower, false, !c.lc⟩ : Ival)) := by
              refine compBetween_good (c :: c' :: cs') (fun i hi => hgd i hi) hchcs _ hlf.2.2
            rw [compBetween_reconstruct_noq (c' :: cs') c
              (⟨EV.ninf, c.lower, false, !c.lc⟩ : Ival) hgc hgcs hchcs hgh0 rfl rfl]
            rw [if_neg (show ¬((compBetween (c :: c' :: cs')).getLastD
                (⟨EV.ninf, c.lower, false, !c.lc⟩ : Ival)).upper = EV.pinf by
              rw [hlf.1]
              exact hnel)]
            have htail : Ival.make ((compBetween (c :: c' :: cs')).getLastD
                  (⟨EV.ninf, c.lower, false, !c.lc⟩ : Ival)).upper EV.pinf
                (!((compBetween (c :: c' :: cs')).getLastD
                  (⟨EV.ninf, c.lower, false, !c.lc⟩ : Ival)).is_right_closed) false =
                cs'.getLastD c' := by
              rw [good_is_right_closed hglp, hlf.1, hlf.2.1, Bool.not_not]
              exact rebuild_right h2 hrlast hnel
            rw [htail]
            have hdrop := dropLast_concat_getLastD (c' :: cs') c
            rw [List.getLastD_cons] at hdrop
            rw [show ([] : List Ival) ++ (c :: c' :: cs').dropLast ++ [cs'.getLastD c'] =
              (c :: c' :: cs').dropLast ++ [cs'.getLastD c'] from by simp]
            rw [hdrop]
        · -- case 1: both ends of the domain are free
          have hglast : Good (cs.getLastD c) := hgd _ (List.getLastD_mem_cons cs c)
          have ht0 : Ival.make (cs.getLastD c).upper EV.pinf
              (!(cs.getLastD c).is_right_closed) false =
              ⟨(cs.getLastD c).upper, EV.pinf, !(cs.getLastD c).rc, false⟩ := by
            rw [good_is_right_closed hglast]
            exact Ival.make_id (Or.inl (EV.blt_pinf_of_ne h2))
          have hgt0 : Good (⟨(cs.getLastD c).upper, EV.pinf,
              !(cs.getLastD c).rc, false⟩ : Ival) := by
            rw [← ht0]
            exact ⟨Ival.make_valid _ _ _ _,
              Ival.make_isEmpty_false (Or.inl (EV.blt_pinf_of_ne h2))⟩
          have hc1 : (DIS.mk (c :: cs)).compl =
              ⟨(⟨EV.ninf, c.lower, false, !c.lc⟩ : Ival) ::
                (compBetween (c :: cs) ++
                  [⟨(cs.getLastD c).upper, EV.pinf, !(cs.getLastD c).rc, false⟩])⟩ := by
            rw [compl_eq (DIS.mk (c :: cs)) c cs rfl]
            rw [if_neg h1, if_neg h2, hh0, ht0]
            rfl
          rw [hc1]
          have hc2 := compl_eq (DIS.mk ((⟨EV.ninf, c.lower, false, !c.lc⟩ : Ival) ::
            (compBetween (c :: cs) ++
              [(⟨(cs.getLastD c).upper, EV.pinf, !(cs.getLastD c).rc, false⟩ : Ival)])))
            (⟨EV.ninf, c.lower, false, !c.lc⟩ : Ival)
            (compBetween (c :: cs) ++
              [(⟨(cs.getLastD c).upper, EV.pinf, !(cs.getLastD c).rc, false⟩ : Ival)]) rfl
          rw [hc2]
          rw [getLastD_append_single]
          rw [if_pos (show (⟨EV.ninf, c.lower, false, !c.lc⟩ : Ival).lower = EV.ninf
            from rfl)]
          rw [if_pos (show (⟨(cs.getLastD c).upper, EV.pinf,
            !(cs.getLastD c).rc, false⟩ : Ival).upper = EV.pinf from rfl)]
          rw [compBetween_reconstruct cs c
            (⟨EV.ninf, c.lower, false, !c.lc⟩ : Ival)
            (⟨(cs.getLastD c).upper, EV.pinf, !(cs.getLastD c).rc, false⟩ : Ival)
            hgc hgcs hchcs hgh0 hgt0 rfl rfl rfl rfl]
          simp

end DIS

/-- Counterexample to C2 as stated: a collection whose single component has
a CLOSED left endpoint at negative infinity (constructible in the code via
the 4-argument constructor) is not recovered by the double complement — the
closed flag at an infinite endpoint is lost, and the result differs both
structurally and under the set operator==. -/
theorem claim_C2_counterexample :
    (DIS.ofList [Ival.make EV.ninf (EV.fin 5) true true]).compl.compl ≠
      DIS.ofList [Ival.make EV.ninf (EV.fin 5) true true] ∧
    DIS.eqD (DIS.ofList [Ival.make EV.ninf (EV.fin 5) true true]).compl.compl
      (DIS.ofList [Ival.make EV.ninf (EV.fin 5) true true]) = false := by
  decide

/-- C2 (amended): for every collection all of whose components are open at
any infinite endpoint, the double complement is the identity (both
structurally and under operator==); the complement of the empty collection
is the full unbounded domain, and the complement of the full domain is the
empty collection. -/
theorem claim_C2_complement (A : DIS) (hA : A.Inv)
    (hopen : ∀ c ∈ A.l, c.openAtInf) :
    A.compl.compl = A ∧ DIS.eqD A.compl.compl A = true ∧
    (DIS.mk []).compl = DIS.unboundedD ∧ DIS.unboundedD.compl = DIS.mk [] := by
  have h := DIS.compl_compl A ((DIS.inv_iff_invAux A).mp hA) hopen
  refine ⟨h, ?_, rfl, by decide⟩
  rw [h]
  exact DIS.eqD_refl A

/-- Witness for C2 at a concrete collection with a bounded component and an
unbounded (open-ended) component. -/
theorem claim_C2_complement_witness :
    (DIS.ofList [Ival.closed (EV.fin 0) (EV.fin 10),
        Ival.greater_than (EV.fin 20)]).compl.compl =
      DIS.ofList [Ival.closed (EV.fin 0) (EV.fin 10), Ival.greater_than (EV.fin 20)] ∧
    DIS.eqD (DIS.ofList [Ival.closed (EV.fin 0) (EV.fin 10),
        Ival.greater_than (EV.fin 20)]).compl.compl
      (DIS.ofList [Ival.closed (EV.fin 0) (EV.fin 10),
        Ival.greater_than (EV.fin 20)]) = true ∧
    (DIS.mk []).compl = DIS.unboundedD ∧ DIS.unboundedD.compl = DIS.mk [] :=
  claim_C2_complement
    (DIS.ofList [Ival.closed (EV.fin 0) (EV.fin 10), Ival.greater_than (EV.fin 20)])
    (by decide) (by decide)

/-- Witness for the amended C4 at a concrete two-component collection with
open extreme boundaries. -/
theorem claim_C4_span_witness :
    ((DIS.mk [Ival.opn (EV.fin 0) (EV.fin 1), Ival.opn (EV.fin 4) (EV.fin 6)]).l = [] →
      (DIS.mk [Ival.opn (EV.fin 0) (EV.fin 1), Ival.opn (EV.fin 4) (EV.fin 6)]).span =
        Ival.emptyI) ∧
    ((DIS.mk [Ival.opn (EV.fin 0) (EV.fin 1), Ival.opn (EV.fin 4) (EV.fin 6)]).l ≠ [] →
      (DIS.mk [Ival.opn (EV.fin 0) (EV.fin 1),
        Ival.opn (EV.fin 4) (EV.fin 6)]).span.isEmpty = false ∧
      (DIS.mk [Ival.opn (EV.fin 0) (EV.fin 1),
        Ival.opn (EV.fin 4) (EV.fin 6)]).span.lc = true ∧
      (DIS.mk [Ival.opn (EV.fin 0) (EV.fin 1),
        Ival.opn (EV.fin 4) (EV.fin 6)]).span.rc = true ∧
      (DIS.mk [Ival.opn (EV.fin 0) (EV.fin 1),
        Ival.opn (EV.fin 4) (EV.fin 6)]).span.lower =
        (DIS.mk [Ival.opn (EV.fin 0) (EV.fin 1),
          Ival.opn (EV.fin 4) (EV.fin 6)]).l.headI.lower ∧
      (DIS.mk [Ival.opn (EV.fin 0) (EV.fin 1),
        Ival.opn (EV.fin 4) (EV.fin 6)]).span.upper =
        ((DIS.mk [Ival.opn (EV.fin 0) (EV.fin 1),
          Ival.opn (EV.fin 4) (EV.fin 6)]).l.getLastD Ival.emptyI).upper) :=
  claim_C4_span
    (DIS.mk [Ival.opn (EV.fin 0) (EV.fin 1), Ival.opn (EV.fin 4) (EV.fin 6)])
    (by decide)
